import Mathlib

/-!
Verification of the Looking-Glass media gateway (src/bot): the HMAC token
codec (`web.py`: `LinkServer.sign_path` / `LinkServer.verify_token`), the
range-aware direct video delivery (`LinkServer._stream_direct`), the stream
quality dispatcher (`LinkServer.handle_video_stream`), the TTL catalog cache
(`cache.py`: `LibraryCache`), and the SFTP catalog scanner (`scanner.py`:
`SeedboxScanner`).

Python strings that travel over the wire (tokens, payloads, headers) are
modelled as Lean `String` / `List Char`; remote paths, which the codec
handles as UTF-8 byte sequences, are modelled as `List Nat` byte lists
(Python `str` values correspond bijectively to their UTF-8 byte sequences,
so equality of paths is equality of byte lists).  Clock reads
(`time.time()`) are passed explicitly as a `now` argument.  The
HMAC-SHA256 hex digest with the fixed server secret is modelled as an
unspecified deterministic function `mac : List Char → List Char` of the
payload string; the only facts used about it are that a hex digest contains
no `.` separator and only ASCII characters, carried as hypotheses.
Fallible code is `Option`- or `Except`-valued: in `verify_token`,
`Except.error ()` models an exception (`TypeError` from
`hmac.compare_digest`) propagating out of the function uncaught.
-/

namespace LookingGlass

/-! ### Generic helpers: splitting, lexicographic order, decimal parsing -/

/-- `splitOnChar sep l` models Python `str.split(sep)` for a one-character
separator: the list of (possibly empty) segments between occurrences of
`sep`.  `splitOnChar sep [] = [[]]`, matching `"".split(".") == [""]`. -/
def splitOnChar (sep : Char) : List Char → List (List Char)
  | [] => [[]]
  | c :: rest =>
    if c = sep then [] :: splitOnChar sep rest
    else
      match splitOnChar sep rest with
      | [] => [[c]]
      | g :: gs => (c :: g) :: gs

theorem splitOnChar_ne_nil (sep : Char) (l : List Char) : splitOnChar sep l ≠ [] := by
  induction l with
  | nil => simp [splitOnChar]
  | cons c rest ih =>
    simp only [splitOnChar]
    split
    · simp
    · cases h : splitOnChar sep rest <;> simp

/-- A segment containing no separator splits into itself alone. -/
theorem splitOnChar_eq_single (sep : Char) (l : List Char)
    (h : ∀ c ∈ l, c ≠ sep) : splitOnChar sep l = [l] := by
  induction l with
  | nil => rfl
  | cons c rest ih =>
    have hc : c ≠ sep := h c (List.mem_cons_self c rest)
    have hrest : splitOnChar sep rest = [rest] := ih fun x hx => h x (List.mem_cons_of_mem c hx)
    simp [splitOnChar, hc, hrest]

/-- Splitting a list that begins with a separator-free segment followed by a
separator peels off that segment. -/
theorem splitOnChar_append (sep : Char) (xs ys : List Char)
    (h : ∀ c ∈ xs, c ≠ sep) :
    splitOnChar sep (xs ++ sep :: ys) = xs :: splitOnChar sep ys := by
  induction xs with
  | nil => simp [splitOnChar]
  | cons c rest ih =>
    have hc : c ≠ sep := h c (List.mem_cons_self c rest)
    have hrest := ih fun x hx => h x (List.mem_cons_of_mem c hx)
    simp [splitOnChar, hc, hrest]

/-- If the separator occurs in `l`, the split has at least two segments. -/
theorem splitOnChar_length_ge_two (sep : Char) (l : List Char)
    (h : sep ∈ l) : 2 ≤ (splitOnChar sep l).length := by
  induction l with
  | nil => cases h
  | cons c rest ih =>
    by_cases hc : c = sep
    · subst hc
      have hne := splitOnChar_ne_nil c rest
      have h1 : 1 ≤ (splitOnChar c rest).length := by
        cases hx : splitOnChar c rest with
        | nil => exact absurd hx hne
        | cons a b => simp
      have hcons : splitOnChar c (c :: rest) = [] :: splitOnChar c rest := by
        simp [splitOnChar]
      rw [hcons, List.length_cons]
      omega
    · have hmem : sep ∈ rest := by
        rcases List.mem_cons.mp h with h1 | h2
        · exact absurd h1.symm hc
        · exact h2
      have h2 := ih hmem
      simp only [splitOnChar, if_neg hc]
      cases hx : splitOnChar sep rest with
      | nil => exact absurd hx (splitOnChar_ne_nil sep rest)
      | cons a b =>
        rw [hx] at h2
        simpa using h2

/-- Strict lexicographic order on char lists by code point, the order Python
uses to compare `str` values (`sorted`, `<`). -/
def lexLt : List Char → List Char → Bool
  | [], [] => false
  | [], _ :: _ => true
  | _ :: _, [] => false
  | a :: as, b :: bs =>
    if a < b then true
    else if b < a then false
    else lexLt as bs

/-- Lexicographic order on `String` values via their character lists. -/
def strLt (a b : String) : Bool := lexLt a.data b.data

theorem lexLt_irrefl (l : List Char) : lexLt l l = false := by
  induction l with
  | nil => rfl
  | cons a as ih => simp [lexLt, ih]

theorem lexLt_total (a b : List Char) :
    lexLt a b = true ∨ a = b ∨ lexLt b a = true := by
  induction a generalizing b with
  | nil => cases b <;> simp [lexLt]
  | cons x xs ih =>
    cases b with
    | nil => simp [lexLt]
    | cons y ys =>
      rcases lt_trichotomy x y with h | h | h
      · left; simp [lexLt, h]
      · subst h
        rcases ih ys with h1 | h1 | h1
        · left; simp [lexLt, h1]
        · right; left; rw [h1]
        · right; right; simp [lexLt, h1]
      · right; right; simp [lexLt, h]

theorem lexLt_asymm (a b : List Char) (h : lexLt a b = true) : lexLt b a = false := by
  induction a generalizing b with
  | nil => cases b <;> simp_all [lexLt]
  | cons x xs ih =>
    cases b with
    | nil => simp_all [lexLt]
    | cons y ys =>
      simp only [lexLt] at h ⊢
      rcases lt_trichotomy x y with hxy | hxy | hxy
      · simp [hxy, asymm hxy, lt_irrefl]
      · subst hxy
        simp only [lt_irrefl, if_false] at h ⊢
        exact ih ys h
      · simp [hxy, asymm hxy] at h

theorem strLt_irrefl (s : String) : strLt s s = false := lexLt_irrefl s.data

theorem strLt_total (a b : String) :
    strLt a b = true ∨ a = b ∨ strLt b a = true := by
  rcases lexLt_total a.data b.data with h | h | h
  · exact Or.inl h
  · refine Or.inr (Or.inl ?_)
    cases a with
    | mk da =>
      cases b with
      | mk db => simp only at h; rw [h]
  · exact Or.inr (Or.inr h)

theorem strLt_asymm (a b : String) (h : strLt a b = true) : strLt b a = false :=
  lexLt_asymm a.data b.data h

/-- Decimal digit characters. -/
def isDecDigit (c : Char) : Bool := '0' ≤ c ∧ c ≤ '9'

/-- Digit accumulator over a digit run that may contain single interior
underscores, mirroring the digit grammar of Python `int()`
(`"1_0"` parses, `"1__0"`, `"_1"`, `"1_"` do not).  The `prevUnd` flag
records whether the previous character was an underscore, which must be
followed by a digit. -/
def pyDigitsGo (acc : Nat) (prevUnd : Bool) : List Char → Option Nat
  | [] => if prevUnd then none else some acc
  | c :: rest =>
    if c = '_' then
      if prevUnd then none else pyDigitsGo acc true rest
    else if isDecDigit c then pyDigitsGo (acc * 10 + (c.toNat - 48)) false rest
    else none

/-- Parse a digit run (with optional interior underscores) to its value. -/
def pyDigits : List Char → Option Nat
  | [] => none
  | c :: rest =>
    if isDecDigit c then pyDigitsGo (c.toNat - 48) false rest else none

/-- Whitespace accepted around a Python `int()` literal; Lean's
`Char.isWhitespace` covers the ASCII cases (space, tab, CR, LF). -/
def isPyWs (c : Char) : Bool := c.isWhitespace

/-- `pyInt? l` models Python `int(s)` on the string with characters `l`:
optional surrounding whitespace, an optional sign, then decimal digits with
optional single interior underscores.  Returns `none` where `int()` raises
`ValueError`. -/
def pyInt? (l : List Char) : Option Int :=
  match ((l.dropWhile isPyWs).reverse.dropWhile isPyWs).reverse with
  | [] => none
  | c :: rest =>
    if c = '-' then (pyDigits rest).map fun n => -(n : Int)
    else if c = '+' then (pyDigits rest).map fun n => (n : Int)
    else (pyDigits (c :: rest)).map fun n => (n : Int)

/-- Decimal digit character of `d` (for `d < 10`). -/
def decDigitChar (d : Nat) : Char := Char.ofNat (48 + d)

/-- Fuelled big-endian decimal digit sequence; `fuel` strictly exceeding `n`
always suffices, so the recursion is structural (and kernel-evaluable). -/
def natToDecAux : Nat → Nat → List Char
  | 0, _ => []
  | fuel + 1, n =>
    if n < 10 then [decDigitChar n]
    else natToDecAux fuel (n / 10) ++ [decDigitChar (n % 10)]

/-- Big-endian decimal digits of a natural number, the character sequence
produced by Python's f-string rendering of a nonnegative `int`. -/
def natToDecChars (n : Nat) : List Char := natToDecAux (n + 1) n

theorem natToDecAux_irrel (f1 : Nat) : ∀ (f2 n : Nat), n < f1 → n < f2 →
    natToDecAux f1 n = natToDecAux f2 n := by
  induction f1 with
  | zero => intro f2 n h1 _; omega
  | succ s ih =>
    intro f2 n h1 h2
    cases f2 with
    | zero => omega
    | succ t =>
      by_cases h : n < 10
      · simp [natToDecAux, h]
      · have hdiv : n / 10 < n := Nat.div_lt_self (by omega) (by omega)
        simp only [natToDecAux, if_neg h]
        rw [ih (t) (n / 10) (by omega) (by omega)]

/-- The recurrence the source rendering satisfies. -/
theorem natToDecChars_eq (n : Nat) : natToDecChars n =
    if n < 10 then [decDigitChar n] else natToDecChars (n / 10) ++ [decDigitChar (n % 10)] := by
  by_cases h : n < 10
  · simp [natToDecChars, natToDecAux, h]
  · have hdiv : n / 10 < n := Nat.div_lt_self (by omega) (by omega)
    rw [if_neg h]
    show natToDecAux (n + 1) n = _
    rw [show natToDecAux (n + 1) n =
      natToDecAux n (n / 10) ++ [decDigitChar (n % 10)] by simp [natToDecAux, h]]
    rw [natToDecAux_irrel n (n / 10 + 1) (n / 10) (by omega) (by omega)]
    rfl

/-- Decimal rendering of an integer, as Python formats an `int`. -/
def intToDecChars (i : Int) : List Char :=
  if i < 0 then '-' :: natToDecChars i.natAbs else natToDecChars i.toNat

theorem decDigitChar_spec (d : Nat) (h : d < 10) :
    isDecDigit (decDigitChar d) = true ∧ (decDigitChar d).toNat = 48 + d ∧
      decDigitChar d ≠ '_' ∧ isPyWs (decDigitChar d) = false := by
  interval_cases d <;> exact ⟨by decide, by decide, by decide, by decide⟩

theorem natToDecChars_all_digits (n : Nat) :
    ∀ c ∈ natToDecChars n, isDecDigit c = true ∧ c ≠ '_' ∧ isPyWs c = false := by
  induction n using Nat.strong_induction_on with
  | _ n ih =>
    intro c hc
    rw [natToDecChars_eq] at hc
    by_cases h : n < 10
    · rw [if_pos h] at hc
      simp only [List.mem_singleton] at hc
      subst hc
      obtain ⟨h1, _, h3, h4⟩ := decDigitChar_spec n h
      exact ⟨h1, h3, h4⟩
    · rw [if_neg h] at hc
      rcases List.mem_append.mp hc with h1 | h1
      · exact ih (n / 10) (Nat.div_lt_self (by omega) (by omega)) c h1
      · simp only [List.mem_singleton] at h1
        subst h1
        obtain ⟨h1, _, h3, h4⟩ := decDigitChar_spec (n % 10) (Nat.mod_lt n (by omega))
        exact ⟨h1, h3, h4⟩

theorem pyDigitsGo_cons_digit (acc : Nat) (c : Char) (rest : List Char)
    (hcu : c ≠ '_') (hc : isDecDigit c = true) :
    pyDigitsGo acc false (c :: rest) =
      pyDigitsGo (acc * 10 + (c.toNat - 48)) false rest := by
  simp [pyDigitsGo, hcu, hc]

theorem pyDigitsGo_append (xs ys : List Char) (acc : Nat)
    (hxs : ∀ c ∈ xs, isDecDigit c = true ∧ c ≠ '_') :
    pyDigitsGo acc false (xs ++ ys) =
      (pyDigitsGo acc false xs).bind fun a => pyDigitsGo a false ys := by
  induction xs generalizing acc with
  | nil => simp [pyDigitsGo]
  | cons c rest ih =>
    obtain ⟨hc, hcu⟩ := hxs c (List.mem_cons_self c rest)
    have hrest : ∀ x ∈ rest, isDecDigit x = true ∧ x ≠ '_' :=
      fun x hx => hxs x (List.mem_cons_of_mem c hx)
    rw [List.cons_append, pyDigitsGo_cons_digit _ _ _ hcu hc,
      pyDigitsGo_cons_digit _ _ _ hcu hc]
    exact ih _ hrest

theorem pyDigitsGo_natToDecChars (n : Nat) :
    ∀ acc, pyDigitsGo acc false (natToDecChars n) =
      some (acc * 10 ^ (natToDecChars n).length + n) := by
  induction n using Nat.strong_induction_on with
  | _ n ih =>
    intro acc
    rw [natToDecChars_eq]
    have hnil : ∀ a : Nat, pyDigitsGo a false [] = some a := fun a => rfl
    by_cases h : n < 10
    · rw [if_pos h]
      obtain ⟨h1, h2, h3, _⟩ := decDigitChar_spec n h
      rw [pyDigitsGo_cons_digit _ _ _ h3 h1, hnil, h2, List.length_singleton, pow_one]
      congr 1
      omega
    · rw [if_neg h]
      have hdiv : n / 10 < n := Nat.div_lt_self (by omega) (by omega)
      have hdigits : ∀ c ∈ natToDecChars (n / 10), isDecDigit c = true ∧ c ≠ '_' :=
        fun c hc => ⟨(natToDecChars_all_digits _ c hc).1, (natToDecChars_all_digits _ c hc).2.1⟩
      rw [pyDigitsGo_append _ _ _ hdigits, ih (n / 10) hdiv acc]
      obtain ⟨h1, h2, h3, _⟩ := decDigitChar_spec (n % 10) (Nat.mod_lt n (by omega))
      rw [Option.some_bind, pyDigitsGo_cons_digit _ _ _ h3 h1, hnil, h2,
        List.length_append, List.length_singleton]
      congr 1
      have hsub : 48 + n % 10 - 48 = n % 10 := by omega
      rw [hsub, pow_succ]
      have hdm : n / 10 * 10 + n % 10 = n := by omega
      calc (acc * 10 ^ (natToDecChars (n / 10)).length + n / 10) * 10 + n % 10
          = acc * (10 ^ (natToDecChars (n / 10)).length * 10) + (n / 10 * 10 + n % 10) := by
            ring
        _ = acc * (10 ^ (natToDecChars (n / 10)).length * 10) + n := by rw [hdm]

theorem natToDecChars_ne_nil (n : Nat) : natToDecChars n ≠ [] := by
  rw [natToDecChars_eq]
  by_cases h : n < 10
  · rw [if_pos h]; simp
  · rw [if_neg h]; simp

theorem pyDigits_natToDecChars (n : Nat) : pyDigits (natToDecChars n) = some n := by
  cases hx : natToDecChars n with
  | nil => exact absurd hx (natToDecChars_ne_nil n)
  | cons c rest =>
    have hall := natToDecChars_all_digits n
    rw [hx] at hall
    obtain ⟨hc, hcu, _⟩ := hall c (List.mem_cons_self c rest)
    have hgo : pyDigitsGo 0 false (c :: rest) = some (0 * 10 ^ (c :: rest).length + n) := by
      rw [← hx]; exact pyDigitsGo_natToDecChars n 0
    rw [pyDigitsGo_cons_digit _ _ _ hcu hc] at hgo
    simp only [pyDigits, hc, if_true]
    have h48 : 0 * 10 + (c.toNat - 48) = c.toNat - 48 := by omega
    rw [h48] at hgo
    rw [hgo]
    congr 1
    omega

theorem dropWhile_eq_self_of_all (p : Char → Bool) (l : List Char)
    (h : ∀ c ∈ l, p c = false) : l.dropWhile p = l := by
  cases l with
  | nil => rfl
  | cons c rest =>
    have := h c (List.mem_cons_self c rest)
    simp [List.dropWhile_cons, this]

/-- Round trip of the decimal codec: Python `int()` parses back the decimal
rendering of a natural number. -/
theorem pyInt_natToDecChars (n : Nat) : pyInt? (natToDecChars n) = some (n : Int) := by
  have hall := natToDecChars_all_digits n
  have hws : ∀ c ∈ natToDecChars n, isPyWs c = false := fun c hc => (hall c hc).2.2
  have h1 : (natToDecChars n).dropWhile isPyWs = natToDecChars n :=
    dropWhile_eq_self_of_all _ _ hws
  have hws2 : ∀ c ∈ (natToDecChars n).reverse, isPyWs c = false := by
    intro c hc; exact hws c (List.mem_reverse.mp hc)
  have h2 : (natToDecChars n).reverse.dropWhile isPyWs = (natToDecChars n).reverse :=
    dropWhile_eq_self_of_all _ _ hws2
  rw [pyInt?]
  rw [h1, h2, List.reverse_reverse]
  cases hx : natToDecChars n with
  | nil => exact absurd hx (natToDecChars_ne_nil n)
  | cons c rest =>
    have hc := hall c (by rw [hx]; exact List.mem_cons_self c rest)
    have hcm : c ≠ '-' := by
      intro h; rw [h] at hc; exact absurd hc.1 (by decide)
    have hcp : c ≠ '+' := by
      intro h; rw [h] at hc; exact absurd hc.1 (by decide)
    simp only [if_neg hcm, if_neg hcp]
    rw [← hx, pyDigits_natToDecChars]
    rfl

/-! ### Base64url codec (`base64.urlsafe_b64encode` / `urlsafe_b64decode`) -/

/-- The URL-safe base64 alphabet, index to character. -/
def b64Alphabet : List Char :=
  "ABCDEFGHIJKLMNOPQRSTUVWXYZabcdefghijklmnopqrstuvwxyz0123456789-_".data

/-- Character of sextet `n` (for `n < 64`). -/
def b64Char (n : Nat) : Char := b64Alphabet.getD n '?'

/-- `b64Encode bs` is the character sequence of
`base64.urlsafe_b64encode(bytes(bs))`: 3-byte groups become 4 alphabet
characters and a final partial group is padded with `=`. -/
def b64Encode : List Nat → List Char
  | [] => []
  | [a] => [b64Char (a / 4), b64Char (a % 4 * 16), '=', '=']
  | [a, b] => [b64Char (a / 4), b64Char (a % 4 * 16 + b / 16), b64Char (b % 16 * 4), '=']
  | a :: b :: c :: rest =>
    b64Char (a / 4) :: b64Char (a % 4 * 16 + b / 16) ::
      b64Char (b % 16 * 4 + c / 64) :: b64Char (c % 64) :: b64Encode rest

theorem b64Alphabet_length : b64Alphabet.length = 64 := rfl

theorem b64Char_ne_dot (n : Nat) : b64Char n ≠ '.' := by
  by_cases h : n < 64
  · interval_cases n <;> decide
  · unfold b64Char
    rw [List.getD_eq_default]
    · decide
    · rw [b64Alphabet_length]; omega

theorem b64Char_ne_pad (n : Nat) : b64Char n ≠ '=' := by
  by_cases h : n < 64
  · interval_cases n <;> decide
  · unfold b64Char
    rw [List.getD_eq_default]
    · decide
    · rw [b64Alphabet_length]; omega

/-- Every character of an encoded string is in the alphabet or padding; in
particular it is never the `.` separator. -/
theorem b64Encode_ne_dot (bs : List Nat) : ∀ c ∈ b64Encode bs, c ≠ '.' := by
  induction bs using b64Encode.induct with
  | case1 => intro c hc; cases hc
  | case2 a =>
    intro c hc
    simp only [b64Encode, List.mem_cons, List.not_mem_nil, or_false] at hc
    rcases hc with h | h | h | h <;> subst h
    · exact b64Char_ne_dot _
    · exact b64Char_ne_dot _
    · decide
    · decide
  | case3 a b =>
    intro c hc
    simp only [b64Encode, List.mem_cons, List.not_mem_nil, or_false] at hc
    rcases hc with h | h | h | h <;> subst h
    · exact b64Char_ne_dot _
    · exact b64Char_ne_dot _
    · exact b64Char_ne_dot _
    · decide
  | case4 a b c rest ih =>
    intro x hx
    simp only [b64Encode, List.mem_cons] at hx
    rcases hx with h | h | h | h | h
    · subst h; exact b64Char_ne_dot _
    · subst h; exact b64Char_ne_dot _
    · subst h; exact b64Char_ne_dot _
    · subst h; exact b64Char_ne_dot _
    · exact ih x h

/-- Every character of an encoded string is ASCII. -/
theorem b64Char_ascii (n : Nat) : (b64Char n).toNat < 128 := by
  by_cases h : n < 64
  · interval_cases n <;> decide
  · unfold b64Char
    rw [List.getD_eq_default]
    · decide
    · rw [b64Alphabet_length]; omega

theorem b64Encode_ascii (bs : List Nat) : ∀ c ∈ b64Encode bs, c.toNat < 128 := by
  induction bs using b64Encode.induct with
  | case1 => intro c hc; cases hc
  | case2 a =>
    intro c hc
    simp only [b64Encode, List.mem_cons, List.not_mem_nil, or_false] at hc
    rcases hc with h | h | h | h <;> subst h
    · exact b64Char_ascii _
    · exact b64Char_ascii _
    · decide
    · decide
  | case3 a b =>
    intro c hc
    simp only [b64Encode, List.mem_cons, List.not_mem_nil, or_false] at hc
    rcases hc with h | h | h | h <;> subst h
    · exact b64Char_ascii _
    · exact b64Char_ascii _
    · exact b64Char_ascii _
    · decide
  | case4 a b c rest ih =>
    intro x hx
    simp only [b64Encode, List.mem_cons] at hx
    rcases hx with h | h | h | h | h
    · subst h; exact b64Char_ascii _
    · subst h; exact b64Char_ascii _
    · subst h; exact b64Char_ascii _
    · subst h; exact b64Char_ascii _
    · exact ih x h

/-- `str.isascii()` per character. -/
def pyIsAscii (c : Char) : Bool := c.toNat < 128

/-- The sextet value of a data character for the lenient decoder, i.e.
`table_a2b_base64` after `urlsafe_b64decode`'s `-_` → `+/` translation
(both alphabets' characters are accepted). -/
def b64CharValue? (c : Char) : Option Nat :=
  if 'A' ≤ c ∧ c ≤ 'Z' then some (c.toNat - 65)
  else if 'a' ≤ c ∧ c ≤ 'z' then some (c.toNat - 97 + 26)
  else if '0' ≤ c ∧ c ≤ '9' then some (c.toNat - 48 + 52)
  else if c = '+' ∨ c = '-' then some 62
  else if c = '/' ∨ c = '_' then some 63
  else none

theorem b64CharValue_b64Char (n : Nat) (h : n < 64) : b64CharValue? (b64Char n) = some n := by
  interval_cases n <;> rfl

/-- CPython's non-strict `binascii.a2b_base64` state machine: `qp` is the
position within the current quad, `left` the pending bits, `pads` the
count of padding characters seen in the current quad.  Data characters
accumulate (bytes are emitted eagerly), characters outside the alphabet are
skipped, `=` at quad position ≥ 2 counts toward termination (two pads from
position 2, one from position 3, stopping the scan), and a dangling quad at
the end is a `binascii.Error` (`none`). -/
def a2b : Nat → Nat → Nat → List Char → Option (List Nat)
  | qp, _, _, [] => if qp = 0 then some [] else none
  | qp, left, pads, c :: rest =>
    if c = '=' then
      if 2 ≤ qp then
        if 4 ≤ qp + pads + 1 then some []
        else a2b qp left (pads + 1) rest
      else a2b qp left pads rest
    else
      match b64CharValue? c with
      | none => a2b qp left pads rest
      | some v =>
        if qp = 0 then a2b 1 v 0 rest
        else if qp = 1 then (a2b 2 (v % 16) 0 rest).map fun bs => (left * 4 + v / 16) :: bs
        else if qp = 2 then (a2b 3 (v % 4) 0 rest).map fun bs => (left * 16 + v / 4) :: bs
        else (a2b 0 0 0 rest).map fun bs => (left * 64 + v) :: bs

/-- `base64.urlsafe_b64decode(s.encode('utf-8'))`: the UTF-8 encoding never
fails, and every byte of a multi-byte UTF-8 sequence is ≥ `0x80`, outside
the base64 alphabet, hence skipped by the non-strict scanner exactly as the
character itself is skipped here; `none` is the dangling-quad
`binascii.Error` (caught by `verify_token`'s `except`). -/
def b64DecodeLenient (cs : List Char) : Option (List Nat) :=
  a2b 0 0 0 cs

theorem a2b_data_char (qp left pads : Nat) (c : Char) (v : Nat) (rest : List Char)
    (hne : c ≠ '=') (hv : b64CharValue? c = some v) :
    a2b qp left pads (c :: rest) =
      (if qp = 0 then a2b 1 v 0 rest
      else if qp = 1 then (a2b 2 (v % 16) 0 rest).map fun bs => (left * 4 + v / 16) :: bs
      else if qp = 2 then (a2b 3 (v % 4) 0 rest).map fun bs => (left * 16 + v / 4) :: bs
      else (a2b 0 0 0 rest).map fun bs => (left * 64 + v) :: bs) := by
  simp only [a2b, if_neg hne, hv]

theorem a2b_step0 (left pads : Nat) (c : Char) (v : Nat) (rest : List Char)
    (hne : c ≠ '=') (hv : b64CharValue? c = some v) :
    a2b 0 left pads (c :: rest) = a2b 1 v 0 rest := by
  rw [a2b_data_char _ _ _ _ _ _ hne hv, if_pos rfl]

theorem a2b_step1 (left pads : Nat) (c : Char) (v : Nat) (rest : List Char)
    (hne : c ≠ '=') (hv : b64CharValue? c = some v) :
    a2b 1 left pads (c :: rest) =
      (a2b 2 (v % 16) 0 rest).map fun bs => (left * 4 + v / 16) :: bs := by
  rw [a2b_data_char _ _ _ _ _ _ hne hv, if_neg (by decide), if_pos rfl]

theorem a2b_step2 (left pads : Nat) (c : Char) (v : Nat) (rest : List Char)
    (hne : c ≠ '=') (hv : b64CharValue? c = some v) :
    a2b 2 left pads (c :: rest) =
      (a2b 3 (v % 4) 0 rest).map fun bs => (left * 16 + v / 4) :: bs := by
  rw [a2b_data_char _ _ _ _ _ _ hne hv, if_neg (by decide), if_neg (by decide), if_pos rfl]

theorem a2b_step3 (left pads : Nat) (c : Char) (v : Nat) (rest : List Char)
    (hne : c ≠ '=') (hv : b64CharValue? c = some v) :
    a2b 3 left pads (c :: rest) =
      (a2b 0 0 0 rest).map fun bs => (left * 64 + v) :: bs := by
  rw [a2b_data_char _ _ _ _ _ _ hne hv, if_neg (by decide), if_neg (by decide),
    if_neg (by decide)]

theorem a2b_pad2_first (left : Nat) (rest : List Char) :
    a2b 2 left 0 ('=' :: rest) = a2b 2 left 1 rest := by
  simp [a2b]

theorem a2b_pad2_second (left : Nat) (rest : List Char) :
    a2b 2 left 1 ('=' :: rest) = some [] := by
  simp [a2b]

theorem a2b_pad3 (left : Nat) (rest : List Char) :
    a2b 3 left 0 ('=' :: rest) = some [] := by
  simp [a2b]

/-- The state machine inverts the encoder. -/
theorem a2b_b64Encode (bs : List Nat) (h : ∀ b ∈ bs, b < 256) :
    a2b 0 0 0 (b64Encode bs) = some bs := by
  induction bs using b64Encode.induct with
  | case1 => rfl
  | case2 a =>
    have ha : a < 256 := h a (by simp)
    have h1 : a / 4 < 64 := by omega
    have h2 : a % 4 * 16 < 64 := by omega
    rw [show b64Encode [a] =
      b64Char (a / 4) :: b64Char (a % 4 * 16) :: '=' :: '=' :: [] from rfl]
    rw [a2b_step0 _ _ _ _ _ (b64Char_ne_pad _) (b64CharValue_b64Char _ h1)]
    rw [a2b_step1 _ _ _ _ _ (b64Char_ne_pad _) (b64CharValue_b64Char _ h2)]
    rw [a2b_pad2_first, a2b_pad2_second]
    simp only [Option.map_some']
    congr 2
    omega
  | case3 a b =>
    have ha : a < 256 := h a (by simp)
    have hb : b < 256 := h b (by simp)
    have h1 : a / 4 < 64 := by omega
    have h2 : a % 4 * 16 + b / 16 < 64 := by omega
    have h3 : b % 16 * 4 < 64 := by omega
    rw [show b64Encode [a, b] = b64Char (a / 4) :: b64Char (a % 4 * 16 + b / 16) ::
      b64Char (b % 16 * 4) :: '=' :: [] from rfl]
    rw [a2b_step0 _ _ _ _ _ (b64Char_ne_pad _) (b64CharValue_b64Char _ h1)]
    rw [a2b_step1 _ _ _ _ _ (b64Char_ne_pad _) (b64CharValue_b64Char _ h2)]
    rw [a2b_step2 _ _ _ _ _ (b64Char_ne_pad _) (b64CharValue_b64Char _ h3)]
    rw [a2b_pad3]
    simp only [Option.map_some']
    congr 2
    · omega
    · congr 1
      omega
  | case4 a b c rest ih =>
    have ha : a < 256 := h a (by simp)
    have hb : b < 256 := h b (by simp)
    have hc : c < 256 := h c (by simp)
    have hrest : ∀ x ∈ rest, x < 256 := fun x hx => h x (by simp [hx])
    have h1 : a / 4 < 64 := by omega
    have h2 : a % 4 * 16 + b / 16 < 64 := by omega
    have h3 : b % 16 * 4 + c / 64 < 64 := by omega
    have h4 : c % 64 < 64 := by omega
    rw [show b64Encode (a :: b :: c :: rest) = b64Char (a / 4) ::
      b64Char (a % 4 * 16 + b / 16) :: b64Char (b % 16 * 4 + c / 64) ::
      b64Char (c % 64) :: b64Encode rest from rfl]
    rw [a2b_step0 _ _ _ _ _ (b64Char_ne_pad _) (b64CharValue_b64Char _ h1)]
    rw [a2b_step1 _ _ _ _ _ (b64Char_ne_pad _) (b64CharValue_b64Char _ h2)]
    rw [a2b_step2 _ _ _ _ _ (b64Char_ne_pad _) (b64CharValue_b64Char _ h3)]
    rw [a2b_step3 _ _ _ _ _ (b64Char_ne_pad _) (b64CharValue_b64Char _ h4)]
    rw [ih hrest]
    simp only [Option.map_some']
    congr 2
    · omega
    · congr 1
      · omega
      · congr 1
        omega

/-- Round trip of the base64url codec on byte lists, through the lenient
decoder. -/
theorem b64DecodeLenient_b64Encode (bs : List Nat) (h : ∀ b ∈ bs, b < 256) :
    b64DecodeLenient (b64Encode bs) = some bs := by
  rw [b64DecodeLenient]
  exact a2b_b64Encode bs h

/-! ### Token codec (`web.py`: `LinkServer.sign_path`, `LinkServer.verify_token`)

The server secret is fixed (`self.cfg.link_secret or 'dev-secret'`), so the
HMAC-SHA256 hex digest is a function of the payload alone, passed in as
`mac`.  Paths are the UTF-8 byte lists of the Python path strings. -/

/-- `LinkServer.sign_path`: base64url-encode the path, append the absolute
expiry timestamp and the HMAC hex digest of `"b64path.expiry"`, joined
with `.`. -/
def sign_path (mac : List Char → List Char) (path : List Nat) (exp_ts : Nat) : String :=
  ⟨b64Encode path ++ '.' :: (natToDecChars exp_ts ++ '.' :: mac (b64Encode path ++ '.' :: natToDecChars exp_ts))⟩

/-- `str.isascii()` over a whole string (as `hmac.compare_digest` checks
it). -/
theorem all_pyIsAscii_of (a : List Char) (ha : ∀ c ∈ a, c.toNat < 128) :
    a.all pyIsAscii = true := by
  rw [List.all_eq_true]
  intro c hc
  simpa [pyIsAscii] using ha c hc

/-- `hmac.compare_digest` on two `str` arguments (`web.py:88`): `TypeError`
(modelled `.error ()`) when either string has a non-ASCII character, else a
boolean equality verdict (constant-time in CPython, plain equality
logically). -/
def compare_digest (a b : List Char) : Except Unit Bool :=
  if a.all pyIsAscii && b.all pyIsAscii then Except.ok (decide (a = b))
  else Except.error ()

theorem compare_digest_ok (a b : List Char) (ha : a.all pyIsAscii = true)
    (hb : b.all pyIsAscii = true) :
    compare_digest a b = Except.ok (decide (a = b)) := by
  rw [compare_digest, if_pos (by rw [ha, hb]; rfl)]

theorem compare_digest_refl (a : List Char) (ha : ∀ c ∈ a, c.toNat < 128) :
    compare_digest a a = Except.ok true := by
  rw [compare_digest_ok a a (all_pyIsAscii_of a ha) (all_pyIsAscii_of a ha)]
  simp

/-- `LinkServer.verify_token`: split on `.` into exactly three fields and
parse the expiry (`int`) inside a `try` whose `except` returns `None`;
return `None` if `now` is past the expiry; recompute the HMAC hex digest
over `"field1.parsedExpiry"` and compare it with the third field using
`hmac.compare_digest` — which sits OUTSIDE any `try` and raises `TypeError`
on a non-ASCII argument, modelled `.error ()` — then base64url-decode the
first field inside a second `try`, so a decode failure returns `None`.
`.ok none` is Python `None`, `.ok (some p)` a returned path. -/
def verify_token (mac : List Char → List Char) (now : Nat) (token : String) :
    Except Unit (Option (List Nat)) :=
  match splitOnChar '.' token.data with
  | [token_b64, exp_s, sig] =>
    match pyInt? exp_s with
    | none => Except.ok none
    | some exp_ts =>
      if (now : Int) > exp_ts then Except.ok none
      else
        match compare_digest (mac (token_b64 ++ '.' :: intToDecChars exp_ts)) sig with
        | Except.error u => Except.error u
        | Except.ok false => Except.ok none
        | Except.ok true => Except.ok (b64DecodeLenient token_b64)
  | _ => Except.ok none

theorem intToDecChars_ofNat (n : Nat) : intToDecChars (n : Int) = natToDecChars n := by
  rw [intToDecChars, if_neg (by omega)]
  simp

theorem isDecDigit_ne_dot (c : Char) (h : isDecDigit c = true) : c ≠ '.' := by
  intro he
  subst he
  exact absurd h (by decide)

/-- Splitting a well-formed token into its three fields. -/
theorem splitOnChar_token (mac : List Char → List Char)
    (hmacDot : ∀ s c, c ∈ mac s → c ≠ '.')
    (p : List Nat) (e : Nat) :
    splitOnChar '.' (sign_path mac p e).data =
      [b64Encode p, natToDecChars e, mac (b64Encode p ++ '.' :: natToDecChars e)] := by
  have hb64 : ∀ c ∈ b64Encode p, c ≠ '.' := b64Encode_ne_dot p
  have hdec : ∀ c ∈ natToDecChars e, c ≠ '.' :=
    fun c hc => isDecDigit_ne_dot c (natToDecChars_all_digits e c hc).1
  have hsig : ∀ c ∈ mac (b64Encode p ++ '.' :: natToDecChars e), c ≠ '.' :=
    fun c hc => hmacDot _ c hc
  show splitOnChar '.' (b64Encode p ++ '.' :: (natToDecChars e ++ '.' :: _)) = _
  rw [splitOnChar_append _ _ _ hb64, splitOnChar_append _ _ _ hdec,
    splitOnChar_eq_single _ _ hsig]

/-- C1.  Token codec round trip: for every path (as UTF-8 bytes) and every
expiry strictly in the future, verifying a freshly signed token raises
nothing and returns exactly the path: `verify_token(sign_path(p, e)) == p`.
A real HMAC hex digest contains no `.` and only ASCII characters, the two
facts assumed of `mac`. -/
theorem verify_sign_roundtrip (mac : List Char → List Char)
    (hmac : ∀ s c, c ∈ mac s → c ≠ '.' ∧ c.toNat < 128)
    (p : List Nat) (hp : ∀ b ∈ p, b < 256)
    (e now : Nat) (hfut : now < e) :
    verify_token mac now (sign_path mac p e) = Except.ok (some p) := by
  rw [verify_token, splitOnChar_token mac (fun s c hc => (hmac s c hc).1) p e]
  simp only [pyInt_natToDecChars]
  rw [if_neg (by omega), intToDecChars_ofNat,
    compare_digest_refl _ (fun c hc => (hmac _ c hc).2)]
  show Except.ok (b64DecodeLenient (b64Encode p)) = Except.ok (some p)
  rw [b64DecodeLenient_b64Encode p hp]

/-- C1 witness: concrete round trip at path bytes `[47, 97]` (`"/a"`),
expiry 10, current time 3. -/
theorem verify_sign_roundtrip_witness :
    (3 < 10) ∧ ((47 : Nat) < 256 ∧ (97 : Nat) < 256) ∧
      verify_token (fun _ => ['a', 'b']) 3 (sign_path (fun _ => ['a', 'b']) [47, 97] 10) =
        Except.ok (some [47, 97]) :=
  ⟨by decide, ⟨by decide, by decide⟩,
    verify_sign_roundtrip (fun _ => ['a', 'b'])
      (fun s c hc => by fin_cases hc <;> exact ⟨by decide, by decide⟩)
      [47, 97]
      (by decide)
      10 3 (by decide)⟩

/-- C2.  Token verification rejection, in three parts: (1) whenever the
current time is strictly past the parsed expiry field the token is rejected
with `None`; (2) whenever the signature field differs from the HMAC
recomputed over the first two fields, and both strings are ASCII (a real
hex digest always is), the token is rejected with `None`; (3) replacing the
signature segment of a validly signed token by any different ASCII string
causes rejection with `None`.  The ASCII hypotheses in (2) and (3) cannot
be dropped: a non-ASCII signature field makes `hmac.compare_digest` raise
`TypeError` instead of rejecting (see the counterexample). -/
theorem verify_token_rejects (mac : List Char → List Char) (now : Nat) :
    (∀ (token : String) (t e s : List Char) (exp_ts : Int),
        splitOnChar '.' token.data = [t, e, s] → pyInt? e = some exp_ts →
        (now : Int) > exp_ts → verify_token mac now token = Except.ok none)
  ∧ (∀ (token : String) (t e s : List Char) (exp_ts : Int),
        splitOnChar '.' token.data = [t, e, s] → pyInt? e = some exp_ts →
        s.all pyIsAscii = true →
        (mac (t ++ '.' :: intToDecChars exp_ts)).all pyIsAscii = true →
        s ≠ mac (t ++ '.' :: intToDecChars exp_ts) →
        verify_token mac now token = Except.ok none)
  ∧ (∀ (p : List Nat) (e : Nat) (sig : List Char),
        sig.all pyIsAscii = true →
        (mac (b64Encode p ++ '.' :: natToDecChars e)).all pyIsAscii = true →
        sig ≠ mac (b64Encode p ++ '.' :: natToDecChars e) →
        verify_token mac now ⟨b64Encode p ++ '.' :: (natToDecChars e ++ '.' :: sig)⟩ =
          Except.ok none) := by
  refine ⟨?_, ?_, ?_⟩
  · intro token t e s exp_ts hsplit hparse hgt
    rw [verify_token, hsplit]
    simp only [hparse]
    rw [if_pos hgt]
  · intro token t e s exp_ts hsplit hparse hsA hmA hne
    rw [verify_token, hsplit]
    simp only [hparse]
    by_cases hgt : (now : Int) > exp_ts
    · rw [if_pos hgt]
    · rw [if_neg hgt, compare_digest_ok _ _ hmA hsA,
        decide_eq_false (fun hx => hne hx.symm)]
  · intro p e sig hsA hmA hne
    have hb64 : ∀ c ∈ b64Encode p, c ≠ '.' := b64Encode_ne_dot p
    have hdec : ∀ c ∈ natToDecChars e, c ≠ '.' :=
      fun c hc => isDecDigit_ne_dot c (natToDecChars_all_digits e c hc).1
    by_cases hdot : '.' ∈ sig
    · have hsplit : splitOnChar '.' (b64Encode p ++ '.' :: (natToDecChars e ++ '.' :: sig)) =
          b64Encode p :: natToDecChars e :: splitOnChar '.' sig := by
        rw [splitOnChar_append _ _ _ hb64, splitOnChar_append _ _ _ hdec]
      have hlen := splitOnChar_length_ge_two '.' sig hdot
      rw [verify_token,
        show (⟨b64Encode p ++ '.' :: (natToDecChars e ++ '.' :: sig)⟩ : String).data =
          b64Encode p ++ '.' :: (natToDecChars e ++ '.' :: sig) from rfl,
        hsplit]
      cases hsg : splitOnChar '.' sig with
      | nil => exact absurd hsg (splitOnChar_ne_nil '.' sig)
      | cons g1 gs1 =>
        cases gs1 with
        | nil => rw [hsg] at hlen; simp at hlen
        | cons g2 gs2 => rfl
    · have hsig : ∀ c ∈ sig, c ≠ '.' := fun c hc he => hdot (he ▸ hc)
      have hsplit : splitOnChar '.' (b64Encode p ++ '.' :: (natToDecChars e ++ '.' :: sig)) =
          [b64Encode p, natToDecChars e, sig] := by
        rw [splitOnChar_append _ _ _ hb64, splitOnChar_append _ _ _ hdec,
          splitOnChar_eq_single _ _ hsig]
      rw [verify_token,
        show (⟨b64Encode p ++ '.' :: (natToDecChars e ++ '.' :: sig)⟩ : String).data =
          b64Encode p ++ '.' :: (natToDecChars e ++ '.' :: sig) from rfl,
        hsplit]
      simp only [pyInt_natToDecChars]
      by_cases hgt : (now : Int) > (e : Int)
      · rw [if_pos hgt]
      · rw [if_neg hgt, intToDecChars_ofNat, compare_digest_ok _ _ hmA hsA,
          decide_eq_false (fun hx => hne hx.symm)]

/-- C2 counterexample: flipping one signature character of a freshly signed
unexpired token to a non-ASCII character gives a differing signature on
which `verify_token` does **not** return `None`: `hmac.compare_digest`
(outside the `try`) raises `TypeError`, so the awaiting handler sees an
exception (an aiohttp 500), never the claimed 403 path. -/
theorem verify_token_rejects_counterexample :
    (['a', 'ñ'] : List Char) ≠
      (fun _ => ['a', 'b'] : List Char → List Char)
        (b64Encode [47] ++ '.' :: intToDecChars 10) ∧
    verify_token (fun _ => ['a', 'b']) 3
      ⟨b64Encode [47] ++ '.' :: (natToDecChars 10 ++ '.' :: ['a', 'ñ'])⟩ =
        Except.error () ∧
    ∀ r : Option (List Nat),
      (Except.error () : Except Unit (Option (List Nat))) ≠ Except.ok r :=
  ⟨by decide, rfl, fun _ h => Except.noConfusion h⟩

/-- C2 witness: a validly signed token is rejected once the clock passes
its expiry, when an ASCII signature field disagrees with the recomputed
digest, and when the signature segment of a signed token is replaced by a
different ASCII string. -/
theorem verify_token_rejects_witness :
    verify_token (fun _ => ['a', 'b']) 11 (sign_path (fun _ => ['a', 'b']) [47] 10) =
      Except.ok none ∧
    verify_token (fun _ => ['a', 'b']) 3 "Lw.10.zz" = Except.ok none ∧
    verify_token (fun _ => ['a', 'b']) 3
      ⟨b64Encode [47] ++ '.' :: (natToDecChars 10 ++ '.' :: ['a', 'z'])⟩ =
        Except.ok none := by
  refine ⟨?_, ?_, ?_⟩
  · exact (verify_token_rejects (fun _ => ['a', 'b']) 11).1
      (sign_path (fun _ => ['a', 'b']) [47] 10)
      (b64Encode [47]) (natToDecChars 10) ['a', 'b'] 10
      (by decide) (by decide) (by decide)
  · exact (verify_token_rejects (fun _ => ['a', 'b']) 3).2.1
      "Lw.10.zz" ['L', 'w'] ['1', '0'] ['z', 'z'] 10
      (by decide) (by decide) (by decide) (by decide) (by decide)
  · exact (verify_token_rejects (fun _ => ['a', 'b']) 3).2.2
      [47] 10 ['a', 'z'] (by decide) (by decide) (by decide)

/-- C10.  `verify_token` on malformed input, for any `mac` whose digests
are ASCII (a real hex digest is): a token that does not split into exactly
three `.`-separated fields returns `None`, as does one whose second field
`int()` cannot parse; on any three-field token whose signature field is
ASCII the function returns (it never raises); and a first field rejected by
the lenient base64url decoder returns `None`.  The ASCII hypothesis on the
signature field cannot be dropped: `hmac.compare_digest` sits outside any
`try` and raises `TypeError` on a non-ASCII field (see the
counterexample), so the function is not total on arbitrary input. -/
theorem verify_token_total_on_malformed (mac : List Char → List Char) (now : Nat)
    (hmacAscii : ∀ s, (mac s).all pyIsAscii = true) (token : String) :
    ((splitOnChar '.' token.data).length ≠ 3 →
      verify_token mac now token = Except.ok none)
  ∧ (∀ t e s, splitOnChar '.' token.data = [t, e, s] → pyInt? e = none →
      verify_token mac now token = Except.ok none)
  ∧ (∀ t e s, splitOnChar '.' token.data = [t, e, s] → s.all pyIsAscii = true →
      ∃ r, verify_token mac now token = Except.ok r)
  ∧ (∀ t e s, splitOnChar '.' token.data = [t, e, s] → s.all pyIsAscii = true →
      b64DecodeLenient t = none → verify_token mac now token = Except.ok none) := by
  refine ⟨?_, ?_, ?_, ?_⟩
  · intro hlen
    rw [verify_token]
    cases hsp : splitOnChar '.' token.data with
    | nil => rfl
    | cons t r1 =>
      cases r1 with
      | nil => rfl
      | cons e r2 =>
        cases r2 with
        | nil => rfl
        | cons s r3 =>
          cases r3 with
          | nil => rw [hsp] at hlen; simp at hlen
          | cons x r4 => rfl
  · intro t e s hsplit hparse
    rw [verify_token, hsplit]
    simp only [hparse]
  · intro t e s hsplit hsA
    rw [verify_token, hsplit]
    show ∃ r, (match pyInt? e with
      | none => Except.ok none
      | some exp_ts =>
        if (now : Int) > exp_ts then Except.ok none
        else
          match compare_digest (mac (t ++ '.' :: intToDecChars exp_ts)) s with
          | Except.error u => Except.error u
          | Except.ok false => Except.ok none
          | Except.ok true => Except.ok (b64DecodeLenient t)) = Except.ok r
    cases hq : pyInt? e with
    | none => exact ⟨none, rfl⟩
    | some exp_ts =>
      show ∃ r, (if (now : Int) > exp_ts then Except.ok none
        else
          match compare_digest (mac (t ++ '.' :: intToDecChars exp_ts)) s with
          | Except.error u => Except.error u
          | Except.ok false => Except.ok none
          | Except.ok true => Except.ok (b64DecodeLenient t)) = Except.ok r
      by_cases hgt : (now : Int) > exp_ts
      · exact ⟨none, by rw [if_pos hgt]⟩
      · by_cases heq : mac (t ++ '.' :: intToDecChars exp_ts) = s
        · refine ⟨b64DecodeLenient t, ?_⟩
          rw [if_neg hgt, compare_digest_ok _ _ (hmacAscii _) hsA, decide_eq_true heq]
        · refine ⟨none, ?_⟩
          rw [if_neg hgt, compare_digest_ok _ _ (hmacAscii _) hsA, decide_eq_false heq]
  · intro t e s hsplit hsA hdecfail
    rw [verify_token, hsplit]
    show (match pyInt? e with
      | none => Except.ok none
      | some exp_ts =>
        if (now : Int) > exp_ts then Except.ok none
        else
          match compare_digest (mac (t ++ '.' :: intToDecChars exp_ts)) s with
          | Except.error u => Except.error u
          | Except.ok false => Except.ok none
          | Except.ok true => Except.ok (b64DecodeLenient t)) = Except.ok none
    cases hq : pyInt? e with
    | none => rfl
    | some exp_ts =>
      show (if (now : Int) > exp_ts then Except.ok none
        else
          match compare_digest (mac (t ++ '.' :: intToDecChars exp_ts)) s with
          | Except.error u => Except.error u
          | Except.ok false => Except.ok none
          | Except.ok true => Except.ok (b64DecodeLenient t)) = Except.ok none
      by_cases hgt : (now : Int) > exp_ts
      · rw [if_pos hgt]
      · rw [if_neg hgt, compare_digest_ok _ _ (hmacAscii _) hsA]
        by_cases heq : mac (t ++ '.' :: intToDecChars exp_ts) = s
        · rw [decide_eq_true heq]
          show Except.ok (b64DecodeLenient t) = Except.ok none
          rw [hdecfail]
        · rw [decide_eq_false heq]

/-- C10 counterexample: `verify_token` is not total on arbitrary input — a
well-shaped, unexpired token whose signature field contains a non-ASCII
character reaches `hmac.compare_digest` outside any `try`, which raises
`TypeError` (`.error ()`), so the function yields neither a path nor
`None`. -/
theorem verify_token_total_counterexample :
    verify_token (fun _ => ['a', 'b']) 0 "AA.99999999999.ñ" = Except.error () ∧
    ∀ r : Option (List Nat),
      (Except.error () : Except Unit (Option (List Nat))) ≠ Except.ok r :=
  ⟨rfl, fun _ h => Except.noConfusion h⟩

/-- C10 witness: concrete malformed tokens are all rejected with `None`,
and a well-shaped token with an ASCII signature field never raises. -/
theorem verify_token_total_on_malformed_witness :
    verify_token (fun _ => ['a', 'b']) 0 "no-dots-here" = Except.ok none ∧
    verify_token (fun _ => ['a', 'b']) 0 "AA.xyz.ab" = Except.ok none ∧
    (∃ r, verify_token (fun _ => ['a', 'b']) 0 "AA.99999999999.zz" = Except.ok r) ∧
    verify_token (fun _ => ['a', 'b']) 0 "AAA.99999999999.zz" = Except.ok none := by
  refine ⟨?_, ?_, ?_, ?_⟩
  · exact (verify_token_total_on_malformed (fun _ => ['a', 'b']) 0
      (fun _ => rfl) "no-dots-here").1 (by decide)
  · exact (verify_token_total_on_malformed (fun _ => ['a', 'b']) 0
      (fun _ => rfl) "AA.xyz.ab").2.1
      ['A', 'A'] ['x', 'y', 'z'] ['a', 'b'] (by decide) (by decide)
  · exact (verify_token_total_on_malformed (fun _ => ['a', 'b']) 0
      (fun _ => rfl) "AA.99999999999.zz").2.2.1
      ['A', 'A'] ['9', '9', '9', '9', '9', '9', '9', '9', '9', '9', '9'] ['z', 'z']
      (by decide) (by decide)
  · exact (verify_token_total_on_malformed (fun _ => ['a', 'b']) 0
      (fun _ => rfl) "AAA.99999999999.zz").2.2.2
      ['A', 'A', 'A'] ['9', '9', '9', '9', '9', '9', '9', '9', '9', '9', '9'] ['z', 'z']
      (by decide) (by decide) (by decide)

/-! ### TTL catalog cache (`cache.py`: `LibraryCache`)

The cached snapshot type is a parameter; `time.time()` values appear as
explicit `Int` timestamps. -/

structure LibraryCache (α : Type) where
  max_age : Int
  data : Option α
  ts : Int

/-- `LibraryCache.get`: absent when nothing is stored, absent when the
snapshot is older than `max_age`, else the stored snapshot. -/
def LibraryCache.get {α : Type} (c : LibraryCache α) (now : Int) : Option α :=
  match c.data with
  | none => none
  | some d => if now - c.ts > c.max_age then none else some d

/-- `LibraryCache.set`: store the snapshot with the current time. -/
def LibraryCache.set {α : Type} (c : LibraryCache α) (d : α) (now : Int) : LibraryCache α :=
  { c with data := some d, ts := now }

/-- C6.  Cache TTL semantics: an immediate `get` after `set X` (same clock
reading, with the configured `max_age` nonnegative) returns `X`, and any
`get` performed when `now - createdAt > max_age` returns absent — a stale
snapshot is never returned (regardless of what is stored). -/
theorem cache_ttl {α : Type} :
    (∀ (c : LibraryCache α) (d : α) (now : Int), 0 ≤ c.max_age →
        (c.set d now).get now = some d)
  ∧ (∀ (c : LibraryCache α) (now : Int), now - c.ts > c.max_age →
        c.get now = none) := by
  constructor
  · intro c d now hage
    simp only [LibraryCache.set, LibraryCache.get]
    rw [if_neg (by omega)]
  · intro c now hstale
    cases hd : c.data with
    | none => simp [LibraryCache.get, hd]
    | some d => simp [LibraryCache.get, hd, if_pos hstale]

/-- C6 witness: a concrete cache holding a catalog value at time 100 with
`max_age` 900 returns it immediately and hides it at time 1001. -/
theorem cache_ttl_witness :
    ((⟨900, none, 0⟩ : LibraryCache Nat).set 7 100).get 100 = some 7 ∧
      (⟨900, some 7, 100⟩ : LibraryCache Nat).get 1001 = none := by
  constructor
  · exact (cache_ttl (α := Nat)).1 ⟨900, none, 0⟩ 7 100 (by decide)
  · exact (cache_ttl (α := Nat)).2 ⟨900, some 7, 100⟩ 1001 (by decide)

/-! ### Stream quality dispatcher (`web.py`: `LinkServer.handle_video_stream`)

Paths and filenames are UTF-8 byte lists (ASCII suffix tests such as
`.endswith('.mp4')` agree between the string and its UTF-8 bytes).  The
external-prober chain (`_find_ffprobe` / `_probe_video_stream` /
`_is_codec_browser_compatible`) is abstracted by the boolean
`remuxCompatible`, and `_find_ffmpeg`'s outcome by `ffmpegFound`.  The
dispatcher's outcome is the action the handler commits to before any body
bytes are produced. -/

/-- ASCII lower-casing of a byte, as `str.lower()` acts on ASCII. -/
def byteLower (b : Nat) : Nat := if 65 ≤ b ∧ b ≤ 90 then b + 32 else b

/-- Code points of an ASCII literal, as bytes. -/
def asciiBytes (s : String) : List Nat := s.data.map Char.toNat

/-- `filename.lower().endswith(ext)` for a lowercase ASCII extension. -/
def lowerEndsWith (filename : List Nat) (ext : String) : Bool :=
  (asciiBytes ext).isSuffixOf (filename.map byteLower)

/-- `LinkServer._is_video_file`. -/
def isVideoFile (filename : List Nat) : Bool :=
  [".mp4", ".mkv", ".webm", ".mov", ".avi"].any (lowerEndsWith filename)

/-- `path.rsplit('/', 1)[-1]`: the final path component. -/
def filenameOf (path : List Nat) : List Nat :=
  (path.reverse.takeWhile (fun b => b ≠ 47)).reverse

/-- Python `str.lower()` on an ASCII query value. -/
def pyLowerS (s : String) : String := ⟨s.data.map Char.toLower⟩

/-- The action `handle_video_stream` commits to: a pre-body error response,
one of the three delivery strategies, or an exception escaping from
`verify_token` (`raised`). -/
inductive StreamAction where
  | response (status : Nat) (body : String)
  | streamDirect (path : List Nat)
  | streamRemux (path : List Nat)
  | streamTranscode (path : List Nat) (targetHeight : Option Nat)
  | raised
deriving DecidableEq

/-- `LinkServer.handle_video_stream`: missing token → 400; a `TypeError`
escaping `verify_token` propagates; failed verification → 403; non-video
filename → 400; quality normalisation and defaulting; native MP4/M4V with
`direct` → direct streaming; **encoder not found → direct streaming
fallback**; `remux` → remux when the probed codec is compatible else
unscaled transcode; else height-bounded transcode. -/
def handle_video_stream (mac : List Char → List Char) (now : Nat)
    (ffmpegFound remuxCompatible : Bool)
    (tokenq qualityq : Option String) : StreamAction :=
  match tokenq with
  | none => .response 400 "Missing token"
  | some token =>
    if token = "" then .response 400 "Missing token"
    else
      match verify_token mac now token with
      | .error _ => .raised
      | .ok none => .response 403 "Invalid or expired token"
      | .ok (some path) =>
        let filename := filenameOf path
        if ¬ isVideoFile filename then .response 400 "File is not a supported video format"
        else
          let q0 := pyLowerS (qualityq.getD "")
          let q := if q0 = "direct" ∨ q0 = "remux" ∨ q0 = "1080p" ∨ q0 = "720p" ∨ q0 = "480p"
            then q0
            else if lowerEndsWith filename ".mp4" ∨ lowerEndsWith filename ".m4v" then "direct"
            else "remux"
          if q = "direct" ∧ (lowerEndsWith filename ".mp4" ∨ lowerEndsWith filename ".m4v") then
            .streamDirect path
          else if ¬ ffmpegFound then .streamDirect path
          else if q = "remux" then
            if remuxCompatible then .streamRemux path else .streamTranscode path none
          else
            .streamTranscode path (some (if q = "1080p" then 1080 else if q = "720p" then 720 else 480))

/-- C5 (amended).  When the external encoder binary cannot be found
(`_find_ffmpeg` returns nothing), a streaming request whose token verifies
and names a video file does **not** fail with 503: the handler falls back to
direct delivery of the original bytes, whatever quality was requested. -/
theorem encoder_unavailable_falls_back_to_direct (mac : List Char → List Char)
    (now : Nat) (remuxCompatible : Bool) (token : String) (qualityq : Option String)
    (path : List Nat) (htok : token ≠ "")
    (hver : verify_token mac now token = Except.ok (some path))
    (hvid : isVideoFile (filenameOf path) = true) :
    handle_video_stream mac now false remuxCompatible (some token) qualityq =
      .streamDirect path := by
  rw [handle_video_stream]
  rw [if_neg htok, hver]
  show (if ¬ isVideoFile (filenameOf path) then _ else _) = _
  rw [if_neg (by simp [hvid])]
  by_cases hq : (let q0 := pyLowerS (qualityq.getD "")
      let q := if q0 = "direct" ∨ q0 = "remux" ∨ q0 = "1080p" ∨ q0 = "720p" ∨ q0 = "480p"
        then q0
        else if lowerEndsWith (filenameOf path) ".mp4" ∨ lowerEndsWith (filenameOf path) ".m4v"
          then "direct" else "remux"
      q = "direct" ∧
        (lowerEndsWith (filenameOf path) ".mp4" ∨ lowerEndsWith (filenameOf path) ".m4v"))
  · rw [if_pos hq]
  · rw [if_neg hq, if_pos (by simp)]

/-- C5 counterexample: with the encoder binary absent, a valid stream
request for `"/m/a.mkv"` (bytes `[47,109,47,97,46,109,107,118]`) at quality
`720p` — a quality that requires the external encoder — yields the direct
streaming action, not an `EncoderUnavailable` 503 response as the claim
states. -/
theorem encoder_unavailable_counterexample :
    handle_video_stream (fun _ => ['a', 'b']) 3 false true
        (some (sign_path (fun _ => ['a', 'b']) [47, 109, 47, 97, 46, 109, 107, 118] 10))
        (some "720p") =
      StreamAction.streamDirect [47, 109, 47, 97, 46, 109, 107, 118] ∧
    ∀ b, StreamAction.streamDirect [47, 109, 47, 97, 46, 109, 107, 118] ≠
      StreamAction.response 503 b := by
  constructor
  · decide
  · intro b h
    exact StreamAction.noConfusion h

/-- C5 (amended) witness: the fallback theorem applied at the concrete
`"/m/a.mkv"` request. -/
theorem encoder_unavailable_falls_back_to_direct_witness :
    handle_video_stream (fun _ => ['a', 'b']) 3 false false
        (some (sign_path (fun _ => ['a', 'b']) [47, 109, 47, 97, 46, 109, 107, 118] 10))
        (some "remux") =
      StreamAction.streamDirect [47, 109, 47, 97, 46, 109, 107, 118] :=
  encoder_unavailable_falls_back_to_direct (fun _ => ['a', 'b']) 3 false
    (sign_path (fun _ => ['a', 'b']) [47, 109, 47, 97, 46, 109, 107, 118] 10)
    (some "remux") [47, 109, 47, 97, 46, 109, 107, 118]
    (by decide) rfl (by decide)

/-- C3.  Single-use stream tokens are **not** enforced by the code: the
handler consults no per-token use registry (`LinkServer` holds no such
state), so its response is a pure function of the request, the clock and
the probe results.  Evaluating the code at the claim's failing input — a
second, identical request with the same still-valid token — yields the same
successful direct-stream action as the first request, not the HTTP 403 the
claim (and the "Stream now (single-use)" label in `unified_browse.py`)
promises. -/
theorem single_use_not_enforced :
    handle_video_stream (fun _ => ['a', 'b']) 3 true true
        (some (sign_path (fun _ => ['a', 'b']) [47, 109, 47, 97, 46, 109, 112, 52] 10))
        (some "direct") =
      StreamAction.streamDirect [47, 109, 47, 97, 46, 109, 112, 52] ∧
    ∀ b, StreamAction.streamDirect [47, 109, 47, 97, 46, 109, 112, 52] ≠
      StreamAction.response 403 b := by
  constructor
  · decide
  · intro b h
    exact StreamAction.noConfusion h

/-! ### Direct video delivery (`web.py`: `LinkServer._stream_direct`)

The remote file is the byte list `source`; the producer thread's chunked
SFTP reads (512 KiB chunks, stopping at the range limit or end of file) are
modelled by `sftpRead`, and the response by `DirectOutcome`: the pre-body
416 response, or a streamed response with its status, `Content-Range`
header, `Content-Length` value and body bytes. -/

inductive DirectOutcome where
  | rangeError
  | stream (status : Nat) (contentRange : Option String) (contentLength : Int) (body : List Nat)
deriving DecidableEq

/-- Fuelled chunked read loop of the producer: from offset `pos` up to and
including offset `limit`, reading `min(512*1024, limit - pos + 1)` bytes per
iteration, stopping early at end of file (`f.read` returning empty). -/
def sftpReadAux (source : List Nat) : Nat → Int → Int → List Nat
  | 0, _, _ => []
  | fuel + 1, pos, limit =>
    if pos > limit then []
    else
      let toRead : Int := min 524288 (limit - pos + 1)
      let n : Int := min toRead ((source.length : Int) - pos)
      if n ≤ 0 then []
      else ((source.drop pos.toNat).take n.toNat) ++ sftpReadAux source fuel (pos + n) limit

/-- The producer's total output for range `[pos, limit]` (fuel strictly
covering the range always suffices, since each iteration advances). -/
def sftpRead (source : List Nat) (pos limit : Int) : List Nat :=
  sftpReadAux source (limit + 1 - pos).toNat pos limit

/-- `f'bytes {start}-{end}/{file_size}'`. -/
def contentRangeStr (st en size : Int) : String :=
  ⟨"bytes ".data ++ intToDecChars st ++ '-' :: (intToDecChars en ++ '/' :: intToDecChars size)⟩

/-- The request tail of `_stream_direct` after a parsed range `(st, ev)`:
clamp the end to the file size, reply 416 when the range is empty, else a
206 partial response with `Content-Range` and the exact slice. -/
def rangeFinish (source : List Nat) (st ev : Int) : DirectOutcome :=
  let size : Int := source.length
  let en := if ev ≥ size then size - 1 else ev
  if st > en then .rangeError
  else .stream 206 (some (contentRangeStr st en size)) (en - st + 1) (sftpRead source st en)

/-- A 200 response streaming from `st` to `en` with `Content-Length` equal
to the full size (the no-header path and all `except` paths, which keep
whatever `start`/`end` had been assigned before the failure). -/
def rangeFull (source : List Nat) (st en : Int) : DirectOutcome :=
  .stream 200 none (source.length : Int) (sftpRead source st en)

/-- `LinkServer._stream_direct`, range handling and body production:
parse `Range: bytes=start-end` (Python `split('=')[1]` then `split('-')`
into exactly two fields, each parsed with `int()` when nonempty), falling
back to a full 200 response on any parse failure, with partial
`start`/`end` assignments surviving into the fallback exactly as in the
`try`/`except`. -/
def stream_direct (source : List Nat) (rangeHeader : Option String) : DirectOutcome :=
  match rangeHeader with
  | none => rangeFull source 0 ((source.length : Int) - 1)
  | some h =>
    if ("bytes=".data).isPrefixOf h.data then
      match splitOnChar '-' ((splitOnChar '=' h.data).getD 1 []) with
      | [s, e] =>
        match (if s.isEmpty then some 0 else pyInt? s) with
        | none => rangeFull source 0 ((source.length : Int) - 1)
        | some st =>
          match (if e.isEmpty then some ((source.length : Int) - 1) else pyInt? e) with
          | none => rangeFull source st ((source.length : Int) - 1)
          | some ev => rangeFinish source st ev
      | _ => rangeFull source 0 ((source.length : Int) - 1)
    else rangeFull source 0 ((source.length : Int) - 1)

theorem sftpReadAux_slice (source : List Nat) :
    ∀ (fuel : Nat) (pos limit : Int), 0 ≤ pos → limit < (source.length : Int) →
      (limit + 1 - pos).toNat ≤ fuel →
      sftpReadAux source fuel pos limit = (source.drop pos.toNat).take (limit + 1 - pos).toNat := by
  intro fuel
  induction fuel with
  | zero =>
    intro pos limit hpos hlim hfuel
    have : (limit + 1 - pos).toNat = 0 := by omega
    rw [this, List.take_zero]
    rfl
  | succ f ih =>
    intro pos limit hpos hlim hfuel
    rw [sftpReadAux]
    by_cases hgt : pos > limit
    · rw [if_pos hgt]
      have : (limit + 1 - pos).toNat = 0 := by omega
      rw [this, List.take_zero]
    · rw [if_neg hgt]
      have hle : pos ≤ limit := by omega
      set toRead : Int := min 524288 (limit - pos + 1) with htr
      set n : Int := min toRead ((source.length : Int) - pos) with hn
      have htr1 : 1 ≤ toRead := by rw [htr]; omega
      have hn1 : 1 ≤ n := by rw [hn, htr]; omega
      have hnle : n ≤ limit + 1 - pos := by rw [hn, htr]; omega
      rw [if_neg (by omega)]
      rw [ih (pos + n) limit (by omega) hlim (by omega)]
      have hdd : (source.drop pos.toNat).drop n.toNat = source.drop (pos + n).toNat := by
        rw [List.drop_drop]
        congr 1
        omega
      rw [← hdd, ← List.take_add]
      congr 1
      omega


theorem isDecDigit_ne (c sep : Char) (hsep : isDecDigit sep = false)
    (hc : isDecDigit c = true) : c ≠ sep := by
  intro he
  rw [he, hsep] at hc
  cases hc

/-- Parsing the constructed `bytes=start-end` header into its two fields. -/
theorem rangeHeader_parse (start end_ : Nat) :
    splitOnChar '-' ((splitOnChar '='
        ("bytes=".data ++ natToDecChars start ++ '-' :: natToDecChars end_)).getD 1 []) =
      [natToDecChars start, natToDecChars end_] := by
  have hsheq : "bytes=".data ++ natToDecChars start ++ '-' :: natToDecChars end_ =
      "bytes".data ++ '=' :: (natToDecChars start ++ '-' :: natToDecChars end_) := by
    simp
  have hnoeq : ∀ c ∈ natToDecChars start ++ '-' :: natToDecChars end_, c ≠ '=' := by
    intro c hc
    rcases List.mem_append.mp hc with h | h
    · exact isDecDigit_ne c '=' (by decide) (natToDecChars_all_digits start c h).1
    · rcases List.mem_cons.mp h with h | h
      · subst h; decide
      · exact isDecDigit_ne c '=' (by decide) (natToDecChars_all_digits end_ c h).1
  rw [hsheq, splitOnChar_append '=' _ _ (by decide), splitOnChar_eq_single _ _ hnoeq]
  show splitOnChar '-' (natToDecChars start ++ '-' :: natToDecChars end_) = _
  rw [splitOnChar_append '-' _ _
      (fun c hc => isDecDigit_ne c '-' (by decide) (natToDecChars_all_digits start c hc).1),
    splitOnChar_eq_single _ _
      (fun c hc => isDecDigit_ne c '-' (by decide) (natToDecChars_all_digits end_ c hc).1)]

theorem natToDecChars_isEmpty (n : Nat) : (natToDecChars n).isEmpty = false := by
  cases hx : natToDecChars n with
  | nil => exact absurd hx (natToDecChars_ne_nil n)
  | cons c r => rfl

/-- The parsed-range tail of `_stream_direct` for a concrete header. -/
theorem stream_direct_parsed (source : List Nat) (start end_ : Nat) :
    stream_direct source
        (some ⟨"bytes=".data ++ natToDecChars start ++ '-' :: natToDecChars end_⟩) =
      rangeFinish source (start : Int) (end_ : Int) := by
  have hpre : ("bytes=".data).isPrefixOf
      ("bytes=".data ++ natToDecChars start ++ '-' :: natToDecChars end_) = true := by
    rw [ List.isPrefixOf_iff_prefix]
    exact (List.prefix_append _ _).trans (List.prefix_append _ _)
  show (if ("bytes=".data).isPrefixOf
      ("bytes=".data ++ natToDecChars start ++ '-' :: natToDecChars end_) then _ else _) = _
  rw [if_pos hpre, rangeHeader_parse]
  show (match (if (natToDecChars start).isEmpty then some 0 else pyInt? (natToDecChars start)) with
    | none => rangeFull source 0 ((source.length : Int) - 1)
    | some st =>
      match (if (natToDecChars end_).isEmpty then some ((source.length : Int) - 1)
          else pyInt? (natToDecChars end_)) with
      | none => rangeFull source st ((source.length : Int) - 1)
      | some ev => rangeFinish source st ev) = _
  rw [natToDecChars_isEmpty, natToDecChars_isEmpty]
  simp only [Bool.false_eq_true, if_false, pyInt_natToDecChars]

/-- C4.  Range contract of direct video delivery:
(1) for `Range: bytes=start-end` with `0 ≤ start ≤ end < size` the response
is 206 with header `Content-Range: bytes start-end/size`, `Content-Length`
`end - start + 1`, and a body of exactly the source bytes `start..end`;
(2) a range whose start lies at or beyond the file size is unsatisfiable and
yields 416; (3) with no `Range` header the response is 200 with
`Content-Length` equal to the full file size and the whole file as body. -/
theorem stream_direct_contract (source : List Nat) :
    (∀ start end_ : Nat, start ≤ end_ → end_ < source.length →
      stream_direct source
          (some ⟨"bytes=".data ++ natToDecChars start ++ '-' :: natToDecChars end_⟩) =
        .stream 206 (some (contentRangeStr start end_ (source.length : Int)))
          ((end_ : Int) - start + 1) ((source.drop start).take (end_ - start + 1)))
  ∧ (∀ start end_ : Nat, source.length ≤ start →
      stream_direct source
          (some ⟨"bytes=".data ++ natToDecChars start ++ '-' :: natToDecChars end_⟩) =
        .rangeError)
  ∧ stream_direct source none = .stream 200 none (source.length : Int) source := by
  refine ⟨?_, ?_, ?_⟩
  · intro start end_ h1 h2
    rw [stream_direct_parsed]
    simp only [rangeFinish]
    rw [if_neg (by omega), if_neg (by omega)]
    have hbody : sftpRead source (start : Int) (end_ : Int) =
        (source.drop start).take (end_ - start + 1) := by
      rw [sftpRead, sftpReadAux_slice source _ _ _ (by omega) (by omega) le_rfl]
      have e1 : ((start : Int)).toNat = start := by omega
      have e2 : ((end_ : Int) + 1 - (start : Int)).toNat = end_ - start + 1 := by omega
      rw [e1, e2]
    rw [hbody]
  · intro start end_ h1
    rw [stream_direct_parsed]
    simp only [rangeFinish]
    by_cases hc : (end_ : Int) ≥ (source.length : Int)
    · rw [if_pos hc, if_pos (by omega)]
    · rw [if_neg hc, if_pos (by omega)]
  · show rangeFull source 0 ((source.length : Int) - 1) = _
    rw [rangeFull]
    have hbody : sftpRead source 0 ((source.length : Int) - 1) = source := by
      rw [sftpRead, sftpReadAux_slice source _ _ _ (by omega) (by omega) le_rfl]
      have e1 : ((0 : Int)).toNat = 0 := rfl
      have e2 : ((source.length : Int) - 1 + 1 - 0).toNat = source.length := by omega
      rw [e1, e2, List.drop_zero, List.take_length]
    rw [hbody]

/-- C4 witness: on the five-byte source `[10, 20, 30, 40, 50]`, the range
`bytes=1-3` yields a 206 whose body is bytes 1..3, and the range
`bytes=7-9` is rejected with 416. -/
theorem stream_direct_contract_witness :
    stream_direct [10, 20, 30, 40, 50]
        (some ⟨"bytes=".data ++ natToDecChars 1 ++ '-' :: natToDecChars 3⟩) =
      .stream 206 (some (contentRangeStr 1 3 5)) 3 [20, 30, 40] ∧
    stream_direct [10, 20, 30, 40, 50]
        (some ⟨"bytes=".data ++ natToDecChars 7 ++ '-' :: natToDecChars 9⟩) =
      .rangeError := by
  constructor
  · have h := (stream_direct_contract [10, 20, 30, 40, 50]).1 1 3 (by decide) (by decide)
    simpa using h
  · exact (stream_direct_contract [10, 20, 30, 40, 50]).2.1 7 9 (by decide)

/-! ### Title cleaning (`scanner.py`: `SeedboxScanner._clean_title`)

`_clean_title` applies `re.sub(r"[\[\{\(].*?[\]\}\)]", "", t)` (leftmost
shortest matches of an opening bracket up to the first closing bracket, the
dot not crossing a newline), then `re.sub(r"[_]+", " ", t)` (each underscore
run becomes one space), then `str.strip()`. -/

def isTagOpen (c : Char) : Bool := c = '[' ∨ c = '{' ∨ c = '('

def isTagClose (c : Char) : Bool := c = ']' ∨ c = '}' ∨ c = ')'

/-- The shortest-match search of `.*?[\]\}\)]` after an opening bracket:
the remainder after the first closing bracket, provided no newline
intervenes (`.` does not match a newline). -/
def matchEnd : List Char → Option (List Char)
  | [] => none
  | c :: rest =>
    if isTagClose c then some rest
    else if c = '\n' then none
    else matchEnd rest

/-- Fuelled scan of `re.sub(r"[\[\{\(].*?[\]\}\)]", "", ·)`: at an opening
bracket with a reachable closing bracket, drop through that bracket and
continue after it; otherwise keep the character.  Fuel strictly above the
input length always suffices. -/
def stripTagsAux : Nat → List Char → List Char
  | 0, l => l
  | fuel + 1, l =>
    match l with
    | [] => []
    | c :: rest =>
      if isTagOpen c then
        match matchEnd rest with
        | some rem => stripTagsAux fuel rem
        | none => c :: stripTagsAux fuel rest
      else c :: stripTagsAux fuel rest

def stripTags (l : List Char) : List Char := stripTagsAux (l.length + 1) l

/-- Underscore-run collapsing, `re.sub(r"[_]+", " ", ·)`; the flag records
whether the previous character was an underscore (already replaced). -/
def collapseAux : Bool → List Char → List Char
  | _, [] => []
  | prevU, c :: rest =>
    if c = '_' then
      if prevU then collapseAux true rest else ' ' :: collapseAux true rest
    else c :: collapseAux false rest

def collapseU (l : List Char) : List Char := collapseAux false l

/-- `str.strip()` of leading whitespace. -/
def stripFront (l : List Char) : List Char := l.dropWhile isPyWs

/-- `str.strip()` of trailing whitespace. -/
def stripBack (l : List Char) : List Char := (l.reverse.dropWhile isPyWs).reverse

def pyStrip (l : List Char) : List Char := stripBack (stripFront l)

/-- `SeedboxScanner._clean_title` on the characters of the title. -/
def cleanTitleChars (l : List Char) : List Char := pyStrip (collapseU (stripTags l))

/-- `SeedboxScanner._clean_title`. -/
def cleanTitle (s : String) : String := ⟨cleanTitleChars s.data⟩

/-- No removable tag remains: at every position, an opening bracket has no
reachable closing bracket. -/
def NoTag : List Char → Prop
  | [] => True
  | c :: rest => (isTagOpen c = true → matchEnd rest = none) ∧ NoTag rest

theorem matchEnd_length {l r : List Char} (h : matchEnd l = some r) :
    r.length < l.length := by
  induction l with
  | nil => cases h
  | cons c rest ih =>
    rw [matchEnd] at h
    by_cases hc : isTagClose c = true
    · rw [if_pos hc] at h
      cases h
      simp
    · rw [if_neg hc] at h
      by_cases hn : c = '\n'
      · rw [if_pos hn] at h; cases h
      · rw [if_neg hn] at h
        exact Nat.lt_trans (ih h) (by simp)

theorem stripTagsAux_of_noTag (fuel : Nat) :
    ∀ l, NoTag l → stripTagsAux fuel l = l := by
  induction fuel with
  | zero => intro l _; rfl
  | succ f ih =>
    intro l hl
    cases l with
    | nil => rfl
    | cons c rest =>
      obtain ⟨h1, h2⟩ := hl
      rw [stripTagsAux]
      by_cases hc : isTagOpen c = true
      · rw [if_pos hc, h1 hc, ih rest h2]
      · rw [if_neg hc, ih rest h2]

theorem matchEnd_none_stripTagsAux (fuel : Nat) :
    ∀ l, matchEnd l = none → matchEnd (stripTagsAux fuel l) = none := by
  induction fuel with
  | zero => intro l h; exact h
  | succ f ih =>
    intro l h
    cases l with
    | nil => rfl
    | cons c rest =>
      rw [matchEnd] at h
      by_cases hcl : isTagClose c = true
      · rw [if_pos hcl] at h; cases h
      · rw [if_neg hcl] at h
        rw [stripTagsAux]
        by_cases hop : isTagOpen c = true
        · rw [if_pos hop]
          by_cases hn : c = '\n'
          · cases hme : matchEnd rest with
            | some rem =>
              exact absurd hn (by revert hop; rw [hn]; decide)
            | none =>
              rw [matchEnd, if_neg hcl, if_pos hn]
          · rw [if_neg hn] at h
            rw [h, matchEnd, if_neg hcl, if_neg hn]
            exact ih rest h
        · rw [if_neg hop, matchEnd, if_neg hcl]
          by_cases hn : c = '\n'
          · rw [if_pos hn]
          · rw [if_neg hn] at h ⊢
            exact ih rest h

theorem noTag_stripTagsAux (fuel : Nat) :
    ∀ l, l.length < fuel → NoTag (stripTagsAux fuel l) := by
  induction fuel with
  | zero => intro l h; omega
  | succ f ih =>
    intro l hlen
    cases l with
    | nil => exact trivial
    | cons c rest =>
      rw [stripTagsAux]
      by_cases hop : isTagOpen c = true
      · rw [if_pos hop]
        cases hme : matchEnd rest with
        | some rem =>
          have := matchEnd_length hme
          exact ih rem (by simp at hlen; omega)
        | none =>
          refine ⟨fun _ => ?_, ?_⟩
          · exact matchEnd_none_stripTagsAux f rest hme
          · exact ih rest (by simp at hlen; omega)
      · rw [if_neg hop]
        refine ⟨fun hx => absurd hx hop, ?_⟩
        exact ih rest (by simp at hlen; omega)

theorem noTag_stripTags (l : List Char) : NoTag (stripTags l) :=
  noTag_stripTagsAux (l.length + 1) l (by omega)

theorem stripTags_of_noTag (l : List Char) (h : NoTag l) : stripTags l = l :=
  stripTagsAux_of_noTag (l.length + 1) l h

theorem matchEnd_none_collapseAux :
    ∀ (l : List Char) (b : Bool), matchEnd l = none → matchEnd (collapseAux b l) = none := by
  intro l
  induction l with
  | nil => intro b _; cases b <;> rfl
  | cons c rest ih =>
    intro b h
    rw [matchEnd] at h
    by_cases hcl : isTagClose c = true
    · rw [if_pos hcl] at h; cases h
    · rw [if_neg hcl] at h
      rw [collapseAux]
      by_cases hu : c = '_'
      · have hn : ¬ c = '\n' := by rw [hu]; decide
        rw [if_neg hn] at h
        rw [if_pos hu]
        by_cases hb : b = true
        · rw [hb, if_pos rfl]
          exact ih true h
        · rw [Bool.not_eq_true] at hb
          rw [hb, if_neg (by decide)]
          rw [matchEnd, if_neg (by decide), if_neg (by decide)]
          exact ih true h
      · rw [if_neg hu, matchEnd, if_neg hcl]
        by_cases hn : c = '\n'
        · rw [if_pos hn]
        · rw [if_neg hn] at h ⊢
          exact ih false h

theorem noTag_collapseAux :
    ∀ (l : List Char) (b : Bool), NoTag l → NoTag (collapseAux b l) := by
  intro l
  induction l with
  | nil => intro b _; cases b <;> exact trivial
  | cons c rest ih =>
    intro b hl
    obtain ⟨h1, h2⟩ := hl
    rw [collapseAux]
    by_cases hu : c = '_'
    · rw [if_pos hu]
      by_cases hb : b = true
    
      · rw [hb, if_pos rfl]
        exact ih true h2
      · rw [Bool.not_eq_true] at hb
        rw [hb, if_neg (by decide)]
        refine ⟨fun hx => absurd hx (by decide), ih true h2⟩
    · rw [if_neg hu]
      refine ⟨fun hx => matchEnd_none_collapseAux rest false (h1 hx), ih false h2⟩

theorem noTag_tail {c : Char} {rest : List Char} (h : NoTag (c :: rest)) : NoTag rest := h.2

theorem noTag_dropWhile (p : Char → Bool) :
    ∀ l, NoTag l → NoTag (l.dropWhile p) := by
  intro l
  induction l with
  | nil => intro _; exact trivial
  | cons c rest ih =>
    intro hl
    rw [List.dropWhile_cons]
    by_cases hp : p c = true
    · rw [if_pos hp]; exact ih hl.2
    · rw [if_neg hp]; exact hl

theorem matchEnd_none_of_append {u v : List Char} (h : matchEnd (u ++ v) = none) :
    matchEnd u = none := by
  induction u with
  | nil => rfl
  | cons c rest ih =>
    rw [List.cons_append, matchEnd] at h
    rw [matchEnd]
    by_cases hcl : isTagClose c = true
    · rw [if_pos hcl] at h; cases h
    · rw [if_neg hcl] at h ⊢
      by_cases hn : c = '\n'
      · rw [if_pos hn]
      · rw [if_neg hn] at h ⊢
        exact ih h

theorem noTag_of_append {u v : List Char} (h : NoTag (u ++ v)) : NoTag u := by
  induction u with
  | nil => exact trivial
  | cons c rest ih =>
    obtain ⟨h1, h2⟩ := h
    exact ⟨fun hx => matchEnd_none_of_append (h1 hx), ih h2⟩

theorem stripBack_append (l : List Char) : ∃ v, l = stripBack l ++ v := by
  have hsuf : l.reverse.dropWhile isPyWs <:+ l.reverse := List.dropWhile_suffix isPyWs
  obtain ⟨t, ht⟩ := hsuf
  refine ⟨t.reverse, ?_⟩
  have hrev := congrArg List.reverse ht
  rw [List.reverse_append, List.reverse_reverse] at hrev
  exact hrev.symm

theorem noTag_stripBack (l : List Char) (h : NoTag l) : NoTag (stripBack l) := by
  obtain ⟨v, hv⟩ := stripBack_append l
  rw [hv] at h
  exact noTag_of_append h

theorem noTag_pyStrip (l : List Char) (h : NoTag l) : NoTag (pyStrip l) :=
  noTag_stripBack _ (noTag_dropWhile isPyWs l h)

theorem collapseAux_no_underscore :
    ∀ (l : List Char) (b : Bool), '_' ∉ collapseAux b l := by
  intro l
  induction l with
  | nil => intro b h; cases b <;> cases h
  | cons c rest ih =>
    intro b h
    rw [collapseAux] at h
    by_cases hu : c = '_'
    · rw [if_pos hu] at h
      by_cases hb : b = true
      · rw [hb, if_pos rfl] at h
        exact ih true h
      · rw [Bool.not_eq_true] at hb
        rw [hb, if_neg (by decide)] at h
        rcases List.mem_cons.mp h with h1 | h1
        · cases h1
        · exact ih true h1
    · rw [if_neg hu] at h
      rcases List.mem_cons.mp h with h1 | h1
      · exact hu h1.symm
      · exact ih false h1

theorem collapseAux_of_no_underscore :
    ∀ (l : List Char), '_' ∉ l → collapseAux false l = l := by
  intro l
  induction l with
  | nil => intro _; rfl
  | cons c rest ih =>
    intro h
    have hc : c ≠ '_' := fun he => h (he ▸ List.mem_cons_self c rest)
    rw [collapseAux, if_neg (fun he => hc he)]
    rw [ih (fun hm => h (List.mem_cons_of_mem c hm))]

theorem dropWhile_dropWhile (p : Char → Bool) :
    ∀ l : List Char, (l.dropWhile p).dropWhile p = l.dropWhile p := by
  intro l
  induction l with
  | nil => rfl
  | cons c rest ih =>
    rw [List.dropWhile_cons]
    by_cases hp : p c = true
    · rw [if_pos hp]; exact ih
    · rw [if_neg hp, List.dropWhile_cons, if_neg hp]

theorem dropWhile_prefix_eq (p : Char → Bool) (u v : List Char)
    (h : (u ++ v).dropWhile p = u ++ v) : u.dropWhile p = u := by
  cases u with
  | nil => rfl
  | cons c rest =>
    rw [List.cons_append, List.dropWhile_cons] at h
    by_cases hp : p c = true
    · rw [if_pos hp] at h
      have hle : (List.dropWhile p (rest ++ v)).length ≤ (rest ++ v).length :=
        (List.dropWhile_sublist p).length_le
      have hlen := congrArg List.length h
      simp only [List.length_cons, List.length_append] at hlen hle
      omega
    · rw [List.dropWhile_cons, if_neg hp]

theorem stripBack_idem (l : List Char) : stripBack (stripBack l) = stripBack l := by
  rw [stripBack, stripBack, List.reverse_reverse, dropWhile_dropWhile]

theorem stripFront_stripBack (l : List Char) (h : l.dropWhile isPyWs = l) :
    stripFront (stripBack l) = stripBack l := by
  obtain ⟨v, hv⟩ := stripBack_append l
  rw [stripFront]
  exact dropWhile_prefix_eq isPyWs (stripBack l) v (by rw [← hv, h])

theorem pyStrip_idem (l : List Char) : pyStrip (pyStrip l) = pyStrip l := by
  rw [pyStrip, pyStrip]
  have hfront : stripFront l = (stripFront l).dropWhile isPyWs :=
    (dropWhile_dropWhile isPyWs l).symm
  rw [stripFront_stripBack (stripFront l) hfront.symm, stripBack_idem]

theorem mem_stripFront {c : Char} {l : List Char} (h : c ∈ stripFront l) : c ∈ l :=
  (List.dropWhile_sublist isPyWs).subset h

theorem mem_stripBack {c : Char} {l : List Char} (h : c ∈ stripBack l) : c ∈ l := by
  obtain ⟨v, hv⟩ := stripBack_append l
  rw [hv]
  exact List.mem_append.mpr (Or.inl h)

theorem mem_pyStrip {c : Char} {l : List Char} (h : c ∈ pyStrip l) : c ∈ l :=
  mem_stripFront (mem_stripBack h)

/-- `_clean_title` is idempotent: its output contains no removable
bracketed tag, no underscore, and no surrounding whitespace, so cleaning it
again changes nothing. -/
theorem cleanTitleChars_idem (l : List Char) :
    cleanTitleChars (cleanTitleChars l) = cleanTitleChars l := by
  have hnotag : NoTag (cleanTitleChars l) :=
    noTag_pyStrip _ (noTag_collapseAux _ false (noTag_stripTags l))
  have hnou : '_' ∉ cleanTitleChars l :=
    fun h => collapseAux_no_underscore (stripTags l) false (mem_pyStrip h)
  rw [cleanTitleChars, stripTags_of_noTag _ hnotag]
  rw [show collapseU (cleanTitleChars l) = cleanTitleChars l from
    collapseAux_of_no_underscore _ hnou]
  exact pyStrip_idem _

theorem cleanTitle_idem (s : String) : cleanTitle (cleanTitle s) = cleanTitle s := by
  rw [cleanTitle, cleanTitle]
  rw [show (String.mk (cleanTitleChars s.data)).data = cleanTitleChars s.data from rfl]
  rw [cleanTitleChars_idem]

/-! ### `sorted(list(set(xs)))`

Python's `sorted(list(set(xs)))` is the strictly increasing enumeration of
the distinct elements of `xs` under the code-point lexicographic order;
`pySortedSet` computes exactly that list by sorted-insert with
deduplication. -/

def insertSortedDedup (a : String) : List String → List String
  | [] => [a]
  | b :: rest =>
    if strLt a b then a :: b :: rest
    else if a = b then b :: rest
    else b :: insertSortedDedup a rest

def pySortedSet (l : List String) : List String := l.foldr insertSortedDedup []

theorem mem_insertSortedDedup {x a : String} :
    ∀ {l : List String}, x ∈ insertSortedDedup a l ↔ x = a ∨ x ∈ l := by
  intro l
  induction l with
  | nil => simp [insertSortedDedup]
  | cons b rest ih =>
    rw [insertSortedDedup]
    by_cases h1 : strLt a b = true
    · rw [if_pos h1]; simp
    · rw [if_neg h1]
      by_cases h2 : a = b
      · rw [if_pos h2]
        subst h2
        simp only [List.mem_cons]
        constructor
        · intro h; exact Or.inr h
        · intro h
          rcases h with h | h | h
          · exact Or.inl (by rw [h])
          · exact Or.inl h
          · exact Or.inr h
      · rw [if_neg h2]
        simp only [List.mem_cons, ih]
        tauto

theorem lexLt_trans :
    ∀ (a b c : List Char), lexLt a b = true → lexLt b c = true → lexLt a c = true := by
  intro a
  induction a with
  | nil =>
    intro b c hab hbc
    cases b with
    | nil => cases hab
    | cons y ys =>
      cases c with
      | nil => cases hbc
      | cons z zs => rfl
  | cons x xs ih =>
    intro b c hab hbc
    cases b with
    | nil => cases hab
    | cons y ys =>
      cases c with
      | nil => cases hbc
      | cons z zs =>
        rw [lexLt] at hab hbc ⊢
        rcases lt_trichotomy x y with hxy | hxy | hxy
        · rcases lt_trichotomy y z with hyz | hyz | hyz
          · rw [if_pos (lt_trans hxy hyz)]
          · subst hyz; rw [if_pos hxy]
          · rw [if_neg (asymm hyz), if_pos hyz] at hbc
            exact absurd hbc (by simp)
        · subst hxy
          rcases lt_trichotomy x z with hxz | hxz | hxz
          · rw [if_pos hxz]
          · subst hxz
            rw [if_neg (lt_irrefl x), if_neg (lt_irrefl x)] at hab hbc ⊢
            exact ih ys zs hab hbc
          · rw [if_neg (asymm hxz), if_pos hxz] at hbc
            exact absurd hbc (by simp)
        · rw [if_neg (asymm hxy), if_pos hxy] at hab
          exact absurd hab (by simp)

theorem strLt_trans (a b c : String) (hab : strLt a b = true) (hbc : strLt b c = true) :
    strLt a c = true :=
  lexLt_trans a.data b.data c.data hab hbc

theorem pairwise_insertSortedDedup {a : String} :
    ∀ {l : List String}, l.Pairwise (fun x y => strLt x y = true) →
      (insertSortedDedup a l).Pairwise (fun x y => strLt x y = true) := by
  intro l
  induction l with
  | nil => intro _; simp [insertSortedDedup]
  | cons b rest ih =>
    intro hp
    obtain ⟨hb, hrest⟩ := List.pairwise_cons.mp hp
    rw [insertSortedDedup]
    by_cases h1 : strLt a b = true
    · rw [if_pos h1]
      refine List.pairwise_cons.mpr ⟨?_, hp⟩
      intro y hy
      rcases List.mem_cons.mp hy with h | h
      · rw [h]; exact h1
      · exact strLt_trans a b y h1 (hb y h)
    · rw [if_neg h1]
      by_cases h2 : a = b
      · rw [if_pos h2]; exact hp
      · rw [if_neg h2]
        refine List.pairwise_cons.mpr ⟨?_, ih hrest⟩
        intro y hy
        rcases mem_insertSortedDedup.mp hy with h | h
        · subst h
          rcases strLt_total y b with hyb | hyb | hyb
          · exact absurd hyb h1
          · exact absurd hyb h2
          · exact hyb
        · exact hb y h

theorem pairwise_pySortedSet (l : List String) :
    (pySortedSet l).Pairwise (fun x y => strLt x y = true) := by
  induction l with
  | nil => simp [pySortedSet]
  | cons a rest ih => exact pairwise_insertSortedDedup ih

theorem mem_pySortedSet {x : String} :
    ∀ {l : List String}, x ∈ pySortedSet l → x ∈ l := by
  intro l
  induction l with
  | nil => intro h; cases h
  | cons a rest ih =>
    intro h
    rcases mem_insertSortedDedup.mp h with h1 | h1
    · exact h1 ▸ List.mem_cons_self a rest
    · exact List.mem_cons_of_mem a (ih h1)

theorem nodup_pySortedSet (l : List String) : (pySortedSet l).Nodup := by
  have hp := pairwise_pySortedSet l
  exact hp.imp fun hxy => by
    intro he
    subst he
    rw [strLt_irrefl] at hxy
    cases hxy

/-! ### Remote catalog scanner (`scanner.py`: `SeedboxScanner`)

A remote tree is modelled by `RTree`: a plain file, a listable directory
with its entries, or a directory whose listing raises `IOError`
(`badDir`) — `stat` succeeds on it (so `_is_dir` is true) but
`listdir_attr` fails.  Each scan receives the root listing as an
`Except Unit (List RTree)`: `error` when `listdir_attr(root_path)` itself
raises, which no scan catches.  Python dicts are insertion-ordered
association lists. -/

inductive RTree where
  | file (name : String)
  | dir (name : String) (entries : List RTree)
  | badDir (name : String)

def RTree.name : RTree → String
  | .file n => n
  | .dir n _ => n
  | .badDir n => n

/-- `SeedboxScanner._is_dir` (a `stat` mode check; it succeeds on a
directory whose later listing fails). -/
def RTree.isDir : RTree → Bool
  | .file _ => false
  | .dir _ _ => true
  | .badDir _ => true

/-- `sftp.listdir_attr` on a directory: its entries, or `IOError`. -/
def RTree.listdir : RTree → Except Unit (List RTree)
  | .dir _ es => .ok es
  | _ => .error ()

/-- Python `filename[:-k]` (for `k = len(ext)`): note `[:-0]` is empty. -/
def pyDropRight (s : String) (k : Nat) : String :=
  if k = 0 then "" else ⟨s.data.take (s.data.length - k)⟩

/-- `SeedboxScanner._matches_extension`: `filename.lower().endswith(ext)`
for some configured extension (the extension list is lowered at
construction). -/
def matches_extension (exts : List String) (filename : String) : Bool :=
  exts.any fun ext => ext.data.isSuffixOf (pyLowerS filename).data

/-- `SeedboxScanner._strip_extension`: drop the first matching configured
extension from the end of the filename. -/
def strip_extension (exts : List String) (filename : String) : String :=
  match exts.find? (fun ext => ext.data.isSuffixOf (pyLowerS filename).data) with
  | some ext => pyDropRight filename ext.data.length
  | none => filename

/-- `SeedboxScanner._matches_any_ext` (per-call extension list, lowered at
use). -/
def matches_any_ext (filename : String) (exts : List String) : Bool :=
  exts.any fun ext => (pyLowerS ext).data.isSuffixOf (pyLowerS filename).data

/-- `SeedboxScanner._strip_any_ext`. -/
def strip_any_ext (filename : String) (exts : List String) : String :=
  match exts.find? (fun ext => (pyLowerS ext).data.isSuffixOf (pyLowerS filename).data) with
  | some ext => pyDropRight filename ext.data.length
  | none => filename

/-- `SeedboxScanner._has_matching_files`: any entry of the listing whose
name matches a configured extension; `IOError` on listing means `False`. -/
def has_matching_files (exts : List String) (t : RTree) : Bool :=
  match t.listdir with
  | .error _ => false
  | .ok es => es.any fun e => matches_extension exts e.name

/-- `SeedboxScanner._dir_has_any_matching`. -/
def dir_has_any_matching (exts : List String) (t : RTree) : Bool :=
  match t.listdir with
  | .error _ => false
  | .ok es => es.any fun e => matches_any_ext e.name exts

/-- The body of the entry loop of `_collect_books_in_author_dir`: a
subdirectory containing a matching file contributes its cleaned name, a
matching file contributes its cleaned extension-stripped name. -/
def booksOfEntries (exts : List String) : List RTree → List String
  | [] => []
  | e :: rest =>
    (if e.isDir then
      if has_matching_files exts e then [cleanTitle e.name] else []
    else
      if matches_extension exts e.name then [cleanTitle (strip_extension exts e.name)] else []) ++
    booksOfEntries exts rest

/-- `SeedboxScanner._collect_books_in_author_dir`: an `IOError` while
listing the author directory yields the empty contribution. -/
def collect_books_in_author_dir (exts : List String) (author : RTree) : List String :=
  match author.listdir with
  | .error _ => []
  | .ok entries => booksOfEntries exts entries

/-- The separator-and-book part of `^(.+?)\s+-\s+(.+)$` at a candidate
author boundary: a nonempty whitespace run, `-`, a nonempty whitespace run,
then a nonempty newline-free remainder (the book group). -/
def trySepBook (l : List Char) : Option (List Char) :=
  let r1 := l.dropWhile isPyWs
  if r1.length = l.length then none
  else
    match r1 with
    | '-' :: rest2 =>
      let r2 := rest2.dropWhile isPyWs
      if r2.length = rest2.length then none
      else if r2.isEmpty then none
      else if r2.all (fun c => c ≠ '\n') then some r2 else none
    | _ => none

/-- `re.match(r"^(.+?)\s+-\s+(.+)$", base)`: scan the shortest nonempty
newline-free author prefix whose boundary admits the separator; returns the
author and book groups.  (`$` is modelled as end-of-string; Python's
acceptance of one trailing newline before `$` is the one divergence, and
cannot arise for a base produced by stripping an extension from a
filename.) -/
def sabGo (acc : List Char) : List Char → Option (List Char × List Char)
  | [] => none
  | c :: rest =>
    if c = '\n' then none
    else
      match trySepBook rest with
      | some b => some (acc ++ [c], b)
      | none => sabGo (acc ++ [c]) rest

def splitAuthorBook (l : List Char) : Option (List Char × List Char) := sabGo [] l

/-- `SeedboxScanner._collect_flat_books_in_root`: skip dotfiles, keep files
matching a configured extension whose extension-stripped base matches
`"Author - Book"`; the author group is stripped, the book group stripped
and cleaned. -/
def flatBooksOfEntries (exts : List String) : List RTree → List (String × String)
  | [] => []
  | e :: rest =>
    (if e.name.data.head? = some '.' then []
    else if matches_extension exts e.name then
      match splitAuthorBook (strip_extension exts e.name).data with
      | some ab => [(⟨pyStrip ab.1⟩, cleanTitle ⟨pyStrip ab.2⟩)]
      | none => []
    else []) ++
    flatBooksOfEntries exts rest

/-- Insertion-ordered dict assignment `d[k] = v`. -/
def dictInsert (d : List (String × List String)) (k : String) (v : List String) :
    List (String × List String) :=
  match d with
  | [] => [(k, v)]
  | kv :: rest => if kv.1 = k then (k, v) :: rest else kv :: dictInsert rest k v

/-- `d.setdefault(k, []).append(b)`. -/
def dictAppendAt (d : List (String × List String)) (k : String) (b : String) :
    List (String × List String) :=
  match d with
  | [] => [(k, [b])]
  | kv :: rest => if kv.1 = k then (kv.1, kv.2 ++ [b]) :: rest else kv :: dictAppendAt rest k b

/-- One author entry of the `scan_library` loop: a directory contributes
its sorted deduplicated books (when any), a plain file contributes
nothing. -/
def scanLibStep (exts : List String) (res : List (String × List String)) (e : RTree) :
    List (String × List String) :=
  let books := if e.isDir then collect_books_in_author_dir exts e else []
  if books.isEmpty then res else dictInsert res e.name (pySortedSet books)

/-- `SeedboxScanner.scan_library`: directory authors contribute their
sorted deduplicated cleaned books; flat `"Author - Book.ext"` files are
appended per author; a final pass re-deduplicates, sorts, and drops empty
authors.  A root listing failure propagates. -/
def scan_library (exts : List String) (root : Except Unit (List RTree)) :
    Except Unit (List (String × List String)) :=
  match root with
  | .error e => .error e
  | .ok entries =>
    let r1 := entries.foldl (scanLibStep exts) []
    let r2 := (flatBooksOfEntries exts entries).foldl
      (fun res ab => dictAppendAt res ab.1 ab.2) r1
    .ok (r2.filterMap fun kv =>
      let dedup := pySortedSet kv.2
      if dedup.isEmpty then none else some (kv.1, dedup))

/-- The entry loop of `scan_movies`. -/
def movieTitlesOfEntries (exts : List String) : List RTree → List String
  | [] => []
  | e :: rest =>
    (if e.isDir then
      if dir_has_any_matching exts e then [cleanTitle e.name] else []
    else
      if matches_any_ext e.name exts then [cleanTitle (strip_any_ext e.name exts)] else []) ++
    movieTitlesOfEntries exts rest

/-- `SeedboxScanner.scan_movies`. -/
def scan_movies (exts : List String) (root : Except Unit (List RTree)) :
    Except Unit (List String) :=
  match root with
  | .error e => .error e
  | .ok entries => .ok (pySortedSet (movieTitlesOfEntries exts entries))

/-- Fuelled `_collect_matching_files_in_dir`: files matching an extension
contribute their cleaned stripped names; subdirectories are entered only
when `recurse` is set; an `IOError` on a listing yields nothing for that
directory. -/
def collectMatchingAux (exts : List String) (recurse : Bool) : Nat → RTree → List String
  | 0, _ => []
  | fuel + 1, t =>
    match t.listdir with
    | .error _ => []
    | .ok es =>
      es.foldr (fun e acc =>
        (if e.isDir then
          if recurse then collectMatchingAux exts recurse fuel e else []
        else
          if matches_any_ext e.name exts then
            [cleanTitle (strip_any_ext e.name exts)]
          else []) ++ acc) []

/-- A computable size of a remote tree, bounding its nesting depth. -/
def RTree.size : RTree → Nat
  | .file _ => 1
  | .badDir _ => 1
  | .dir _ es => 1 + (es.attach.map fun te => RTree.size te.1).sum
decreasing_by
  have hlt := List.sizeOf_lt_of_mem te.2
  simp only [RTree.dir.sizeOf_spec]
  omega

/-- `SeedboxScanner._collect_matching_files_in_dir` (the nesting depth of a
tree is bounded by its size, so `RTree.size` fuel always suffices). -/
def collect_matching_files_in_dir (exts : List String) (recurse : Bool) (t : RTree) :
    List String :=
  collectMatchingAux exts recurse t.size t

/-- The episode collection for one show in `scan_tv`: files directly under
the show and files one level deeper (season directories, not recursed
further); a listing failure inside the `try` leaves the episodes empty. -/
def episodesOfShowEntries (exts : List String) : List RTree → List String
  | [] => []
  | e :: rest =>
    (if e.isDir then collect_matching_files_in_dir exts false e
    else if matches_any_ext e.name exts then [cleanTitle (strip_any_ext e.name exts)] else []) ++
    episodesOfShowEntries exts rest

/-- One show of the `scan_tv` loop. -/
def scanTvStep (exts : List String) (res : List (String × List String)) (se : RTree) :
    List (String × List String) :=
  let episodes :=
    if se.isDir then
      match se.listdir with
      | .error _ => []
      | .ok es => episodesOfShowEntries exts es
    else []
  if episodes.isEmpty then res else dictInsert res se.name (pySortedSet episodes)

/-- `SeedboxScanner.scan_tv`. -/
def scan_tv (exts : List String) (root : Except Unit (List RTree)) :
    Except Unit (List (String × List String)) :=
  match root with
  | .error e => .error e
  | .ok shows => .ok (shows.foldl (scanTvStep exts) [])

/-- One artist of the `scan_music` loop. -/
def scanMusicStep (exts : List String) (res : List (String × List String)) (artist : RTree) :
    List (String × List String) :=
  let tracks :=
    if artist.isDir then collect_matching_files_in_dir exts true artist
    else if matches_any_ext artist.name exts then
      [cleanTitle (strip_any_ext artist.name exts)]
    else []
  if tracks.isEmpty then res else dictInsert res artist.name (pySortedSet tracks)

/-- `SeedboxScanner.scan_music`. -/
def scan_music (exts : List String) (root : Except Unit (List RTree)) :
    Except Unit (List (String × List String)) :=
  match root with
  | .error e => .error e
  | .ok entries => .ok (entries.foldl (scanMusicStep exts) [])

/-- C7.  The book scan on the reference tree `/lib/Alice/Book1.epub`,
`/lib/Alice/Book2/Book2.epub`, `/lib/Bob - BobBook.epub` with extension
`.epub` returns exactly the catalog
`Alice -> [Book1, Book2], Bob -> [BobBook]` (tag stripping leaves these
titles unchanged). -/
theorem scan_library_reference_tree :
    scan_library [".epub"]
        (.ok [RTree.dir "Alice" [RTree.file "Book1.epub",
                RTree.dir "Book2" [RTree.file "Book2.epub"]],
              RTree.file "Bob - BobBook.epub"]) =
      .ok [("Alice", ["Book1", "Book2"]), ("Bob", ["BobBook"])] := rfl

/-- C8.  Scanner partial-result policy for the book scan: (1) a failure
listing the root propagates to the caller as an error; (2) given any root
listing, the scan always completes with a catalog; (3) an author directory
whose listing fails (`badDir`) contributes exactly nothing: the scan result
equals that of the same tree with the branch emptied, so all other
branches' entries are still returned. -/
theorem scanner_branch_failure_policy :
    (∀ exts : List String, scan_library exts (.error ()) = .error ())
  ∧ (∀ (exts : List String) (entries : List RTree),
      ∃ cat, scan_library exts (.ok entries) = .ok cat)
  ∧ (∀ (exts : List String) (pre post : List RTree) (n : String),
      scan_library exts (.ok (pre ++ RTree.badDir n :: post)) =
        scan_library exts (.ok (pre ++ RTree.dir n [] :: post))) := by
  refine ⟨fun _ => rfl, fun _ _ => ⟨_, rfl⟩, ?_⟩
  intro exts pre post n
  have h1 : ∀ init, List.foldl (scanLibStep exts) init (pre ++ RTree.badDir n :: post) =
      List.foldl (scanLibStep exts) init (pre ++ RTree.dir n [] :: post) := by
    intro init
    have hstep : ∀ X, scanLibStep exts X (RTree.badDir n) = scanLibStep exts X (RTree.dir n []) :=
      fun _ => rfl
    rw [List.foldl_append, List.foldl_append, List.foldl_cons, List.foldl_cons, hstep]
  have h2 : flatBooksOfEntries exts (pre ++ RTree.badDir n :: post) =
      flatBooksOfEntries exts (pre ++ RTree.dir n [] :: post) := by
    clear h1
    induction pre with
    | nil => rfl
    | cons e rest ih =>
      rw [List.cons_append, List.cons_append, flatBooksOfEntries, flatBooksOfEntries, ih]
  simp only [scan_library]
  rw [h1, h2]

/-- C8 witness: on a concrete tree whose `Broken` author directory fails to
list, the scan still returns the other author's entry, and a root failure
is an error. -/
theorem scanner_branch_failure_policy_witness :
    scan_library [".epub"] (.error ()) = .error () ∧
    scan_library [".epub"]
        (.ok [RTree.badDir "Broken", RTree.dir "Alice" [RTree.file "Book1.epub"]]) =
      scan_library [".epub"]
        (.ok [RTree.dir "Broken" [], RTree.dir "Alice" [RTree.file "Book1.epub"]]) := by
  constructor
  · exact scanner_branch_failure_policy.1 [".epub"]
  · exact scanner_branch_failure_policy.2.2 [".epub"] []
      [RTree.dir "Alice" [RTree.file "Book1.epub"]] "Broken"

/-! ### C9: the catalog group invariant -/

/-- The claimed invariant of one catalog group: titles strictly
lexicographically sorted, duplicate-free, and tag-stripped (fixed by
`_clean_title`). -/
def GroupOk (v : List String) : Prop :=
  v.Pairwise (fun a b => strLt a b = true) ∧ v.Nodup ∧ ∀ t ∈ v, cleanTitle t = t

/-- An element of a cleaned-title collection, sorted and deduplicated, is a
well-formed group. -/
theorem groupOk_pySortedSet (w : List String) (hw : ∀ t ∈ w, ∃ r, t = cleanTitle r) :
    GroupOk (pySortedSet w) := by
  refine ⟨pairwise_pySortedSet w, nodup_pySortedSet w, ?_⟩
  intro t ht
  obtain ⟨r, hr⟩ := hw t (mem_pySortedSet ht)
  rw [hr, cleanTitle_idem]

theorem mem_ite_singleton {c : Prop} [Decidable c] {x t : String}
    (h : t ∈ (if c then [x] else [])) : t = x := by
  by_cases hc : c
  · rw [if_pos hc] at h; simpa using h
  · rw [if_neg hc] at h; cases h

/-- Every book collected from an author directory's entries is a cleaned
title. -/
theorem booksOfEntries_clean (exts : List String) :
    ∀ es, ∀ t ∈ booksOfEntries exts es, ∃ r, t = cleanTitle r := by
  intro es
  induction es with
  | nil => intro t ht; cases ht
  | cons e rest ih =>
    intro t ht
    rw [booksOfEntries] at ht
    rcases List.mem_append.mp ht with h | h
    · by_cases hd : e.isDir = true
      · rw [if_pos hd] at h
        exact ⟨e.name, mem_ite_singleton h⟩
      · rw [if_neg hd] at h
        exact ⟨strip_extension exts e.name, mem_ite_singleton h⟩
    · exact ih t h

theorem collect_books_clean (exts : List String) (author : RTree) :
    ∀ t ∈ collect_books_in_author_dir exts author, ∃ r, t = cleanTitle r := by
  intro t ht
  rw [collect_books_in_author_dir] at ht
  cases hl : author.listdir with
  | error e => rw [hl] at ht; cases ht
  | ok es =>
    rw [hl] at ht
    exact booksOfEntries_clean exts es t ht

/-- Every flat-file book component is a cleaned title. -/
theorem flatBooksOfEntries_clean (exts : List String) :
    ∀ es, ∀ ab ∈ flatBooksOfEntries exts es, ∃ r, ab.2 = cleanTitle r := by
  intro es
  induction es with
  | nil => intro ab h; cases h
  | cons e rest ih =>
    intro ab h
    rw [flatBooksOfEntries] at h
    rcases List.mem_append.mp h with h | h
    · by_cases h1 : e.name.data.head? = some '.'
      · rw [if_pos h1] at h; cases h
      · rw [if_neg h1] at h
        by_cases h2 : matches_extension exts e.name = true
        · rw [if_pos h2] at h
          cases hsab : splitAuthorBook (strip_extension exts e.name).data with
          | none => rw [hsab] at h; cases h
          | some p =>
            rw [hsab] at h
            have : ab = (⟨pyStrip p.1⟩, cleanTitle ⟨pyStrip p.2⟩) := by simpa using h
            exact ⟨⟨pyStrip p.2⟩, by rw [this]⟩
        · rw [if_neg h2] at h; cases h
    · exact ih ab h

/-- Every title collected by the recursive matcher is a cleaned title. -/
theorem collectMatchingAux_clean (exts : List String) (recurse : Bool) :
    ∀ (fuel : Nat) (t : RTree), ∀ x ∈ collectMatchingAux exts recurse fuel t,
      ∃ r, x = cleanTitle r := by
  intro fuel
  induction fuel with
  | zero => intro t x hx; cases hx
  | succ f ih =>
    intro t x hx
    cases t with
    | file name => simp [collectMatchingAux, RTree.listdir] at hx
    | badDir name => simp [collectMatchingAux, RTree.listdir] at hx
    | dir name es =>
      simp only [collectMatchingAux, RTree.listdir] at hx
      induction es with
      | nil => cases hx
      | cons e rest ihes =>
        rw [List.foldr_cons] at hx
        rcases List.mem_append.mp hx with h | h
        · by_cases hd : e.isDir = true
          · rw [if_pos hd] at h
            by_cases hr : recurse = true
            · rw [if_pos hr] at h
              exact ih e x h
            · rw [if_neg hr] at h; cases h
          · rw [if_neg hd] at h
            exact ⟨strip_any_ext e.name exts, mem_ite_singleton h⟩
        · exact ihes h

theorem collect_matching_clean (exts : List String) (recurse : Bool) (t : RTree) :
    ∀ x ∈ collect_matching_files_in_dir exts recurse t, ∃ r, x = cleanTitle r :=
  collectMatchingAux_clean exts recurse t.size t

theorem episodesOfShowEntries_clean (exts : List String) :
    ∀ es, ∀ x ∈ episodesOfShowEntries exts es, ∃ r, x = cleanTitle r := by
  intro es
  induction es with
  | nil => intro x hx; cases hx
  | cons e rest ih =>
    intro x hx
    rw [episodesOfShowEntries] at hx
    rcases List.mem_append.mp hx with h | h
    · by_cases hd : e.isDir = true
      · rw [if_pos hd] at h
        exact collect_matching_clean exts false e x h
      · rw [if_neg hd] at h
        exact ⟨strip_any_ext e.name exts, mem_ite_singleton h⟩
    · exact ih x h

theorem movieTitlesOfEntries_clean (exts : List String) :
    ∀ es, ∀ x ∈ movieTitlesOfEntries exts es, ∃ r, x = cleanTitle r := by
  intro es
  induction es with
  | nil => intro x hx; cases hx
  | cons e rest ih =>
    intro x hx
    rw [movieTitlesOfEntries] at hx
    rcases List.mem_append.mp hx with h | h
    · by_cases hd : e.isDir = true
      · rw [if_pos hd] at h
        exact ⟨e.name, mem_ite_singleton h⟩
      · rw [if_neg hd] at h
        exact ⟨strip_any_ext e.name exts, mem_ite_singleton h⟩
    · exact ih x h

/-- All values of an association list are clean-title collections. -/
def ValsClean (d : List (String × List String)) : Prop :=
  ∀ kv ∈ d, ∀ t ∈ kv.2, ∃ r, t = cleanTitle r

/-- All values of an association list are well-formed groups. -/
def ValsOk (d : List (String × List String)) : Prop :=
  ∀ kv ∈ d, GroupOk kv.2

theorem valsClean_nil : ValsClean [] := fun kv h => absurd h (List.not_mem_nil kv)

theorem valsOk_nil : ValsOk [] := fun kv h => absurd h (List.not_mem_nil kv)

theorem valsClean_dictInsert (k : String) (v : List String)
    (hv : ∀ t ∈ v, ∃ r, t = cleanTitle r) :
    ∀ d, ValsClean d → ValsClean (dictInsert d k v) := by
  intro d
  induction d with
  | nil =>
    intro _ kv hkv
    rw [dictInsert] at hkv
    simp only [List.mem_singleton] at hkv
    subst hkv
    exact hv
  | cons kv0 rest ih =>
    intro hd kv hkv
    rw [dictInsert] at hkv
    by_cases hk : kv0.1 = k
    · rw [if_pos hk] at hkv
      rcases List.mem_cons.mp hkv with h | h
      · subst h; exact hv
      · exact hd kv (List.mem_cons_of_mem kv0 h)
    · rw [if_neg hk] at hkv
      rcases List.mem_cons.mp hkv with h | h
      · rw [h]; exact hd kv0 (List.mem_cons_self kv0 rest)
      · exact ih (fun kv' hkv' => hd kv' (List.mem_cons_of_mem kv0 hkv')) kv h

theorem valsOk_dictInsert (k : String) (v : List String) (hv : GroupOk v) :
    ∀ d, ValsOk d → ValsOk (dictInsert d k v) := by
  intro d
  induction d with
  | nil =>
    intro _ kv hkv
    rw [dictInsert] at hkv
    simp only [List.mem_singleton] at hkv
    subst hkv
    exact hv
  | cons kv0 rest ih =>
    intro hd kv hkv
    rw [dictInsert] at hkv
    by_cases hk : kv0.1 = k
    · rw [if_pos hk] at hkv
      rcases List.mem_cons.mp hkv with h | h
      · subst h; exact hv
      · exact hd kv (List.mem_cons_of_mem kv0 h)
    · rw [if_neg hk] at hkv
      rcases List.mem_cons.mp hkv with h | h
      · rw [h]; exact hd kv0 (List.mem_cons_self kv0 rest)
      · exact ih (fun kv' hkv' => hd kv' (List.mem_cons_of_mem kv0 hkv')) kv h

theorem valsClean_dictAppendAt (k : String) (b : String) (hb : ∃ r, b = cleanTitle r) :
    ∀ d, ValsClean d → ValsClean (dictAppendAt d k b) := by
  intro d
  induction d with
  | nil =>
    intro _ kv hkv
    rw [dictAppendAt] at hkv
    simp only [List.mem_singleton] at hkv
    subst hkv
    intro t ht
    simp only [List.mem_singleton] at ht
    subst ht
    exact hb
  | cons kv0 rest ih =>
    intro hd kv hkv
    rw [dictAppendAt] at hkv
    by_cases hk : kv0.1 = k
    · rw [if_pos hk] at hkv
      rcases List.mem_cons.mp hkv with h | h
      · subst h
        intro t ht
        rcases List.mem_append.mp ht with h1 | h1
        · exact hd kv0 (List.mem_cons_self kv0 rest) t h1
        · simp only [List.mem_singleton] at h1
          subst h1
          exact hb
      · exact hd kv (List.mem_cons_of_mem kv0 h)
    · rw [if_neg hk] at hkv
      rcases List.mem_cons.mp hkv with h | h
      · rw [h]; exact hd kv0 (List.mem_cons_self kv0 rest)
      · exact ih (fun kv' hkv' => hd kv' (List.mem_cons_of_mem kv0 hkv')) kv h

theorem scanLibFold_valsClean (exts : List String) :
    ∀ (es : List RTree) (res : List (String × List String)), ValsClean res →
      ValsClean (List.foldl (scanLibStep exts) res es) := by
  intro es
  induction es with
  | nil => intro res h; exact h
  | cons e rest ih =>
    intro res h
    rw [List.foldl_cons]
    apply ih
    simp only [scanLibStep]
    by_cases hb : (if e.isDir = true then collect_books_in_author_dir exts e else []).isEmpty = true
    · rw [if_pos hb]; exact h
    · rw [if_neg hb]
      apply valsClean_dictInsert _ _ _ _ h
      intro t ht
      have ht' := mem_pySortedSet ht
      by_cases hd : e.isDir = true
      · rw [if_pos hd] at ht'
        exact collect_books_clean exts e t ht'
      · rw [if_neg hd] at ht'
        cases ht'

theorem flatsFold_valsClean :
    ∀ (flats : List (String × String)) (res : List (String × List String)),
      (∀ ab ∈ flats, ∃ r, ab.2 = cleanTitle r) → ValsClean res →
      ValsClean (flats.foldl (fun res ab => dictAppendAt res ab.1 ab.2) res) := by
  intro flats
  induction flats with
  | nil => intro res _ h; exact h
  | cons ab rest ih =>
    intro res hclean h
    rw [List.foldl_cons]
    apply ih _ (fun ab' hab' => hclean ab' (List.mem_cons_of_mem ab hab'))
    exact valsClean_dictAppendAt ab.1 ab.2 (hclean ab (List.mem_cons_self ab rest)) res h

theorem scanTvFold_valsOk (exts : List String) :
    ∀ (shows : List RTree) (res : List (String × List String)), ValsOk res →
      ValsOk (List.foldl (scanTvStep exts) res shows) := by
  intro shows
  induction shows with
  | nil => intro res h; exact h
  | cons se rest ih =>
    intro res h
    rw [List.foldl_cons]
    apply ih
    simp only [scanTvStep]
    set eps := (if se.isDir = true then
      match se.listdir with
      | .error _ => []
      | .ok es => episodesOfShowEntries exts es
      else []) with heps
    by_cases hb : eps.isEmpty = true
    · rw [if_pos hb]; exact h
    · rw [if_neg hb]
      apply valsOk_dictInsert _ _ _ _ h
      apply groupOk_pySortedSet
      intro t ht
      rw [heps] at ht
      by_cases hd : se.isDir = true
      · rw [if_pos hd] at ht
        cases hl : se.listdir with
        | error u => rw [hl] at ht; cases ht
        | ok es =>
          rw [hl] at ht
          exact episodesOfShowEntries_clean exts es t ht
      · rw [if_neg hd] at ht
        cases ht

theorem scanMusicFold_valsOk (exts : List String) :
    ∀ (artists : List RTree) (res : List (String × List String)), ValsOk res →
      ValsOk (List.foldl (scanMusicStep exts) res artists) := by
  intro artists
  induction artists with
  | nil => intro res h; exact h
  | cons a rest ih =>
    intro res h
    rw [List.foldl_cons]
    apply ih
    simp only [scanMusicStep]
    set tr := (if a.isDir = true then collect_matching_files_in_dir exts true a
      else if matches_any_ext a.name exts = true then
        [cleanTitle (strip_any_ext a.name exts)]
      else []) with htr
    by_cases hb : tr.isEmpty = true
    · rw [if_pos hb]; exact h
    · rw [if_neg hb]
      apply valsOk_dictInsert _ _ _ _ h
      apply groupOk_pySortedSet
      intro t ht
      rw [htr] at ht
      by_cases hd : a.isDir = true
      · rw [if_pos hd] at ht
        exact collect_matching_clean exts true a t ht
      · rw [if_neg hd] at ht
        by_cases hm : matches_any_ext a.name exts = true
        · rw [if_pos hm] at ht
          simp only [List.mem_singleton] at ht
          exact ⟨strip_any_ext a.name exts, ht⟩
        · rw [if_neg hm] at ht
          cases ht

/-- C9.  Catalog group invariant: over any remote tree, every group of
titles produced by any of the four scans is strictly lexicographically
sorted, free of duplicates, and consists of tag-stripped titles (fixed
points of `_clean_title`). -/
theorem catalog_group_invariant (exts : List String) (entries : List RTree) :
    (∀ cat, scan_library exts (.ok entries) = .ok cat → ∀ kv ∈ cat, GroupOk kv.2)
  ∧ (∀ l, scan_movies exts (.ok entries) = .ok l → GroupOk l)
  ∧ (∀ cat, scan_tv exts (.ok entries) = .ok cat → ∀ kv ∈ cat, GroupOk kv.2)
  ∧ (∀ cat, scan_music exts (.ok entries) = .ok cat → ∀ kv ∈ cat, GroupOk kv.2) := by
  refine ⟨?_, ?_, ?_, ?_⟩
  · intro cat hcat kv hkv
    simp only [scan_library, Except.ok.injEq] at hcat
    subst hcat
    obtain ⟨kv', hkv', hf⟩ := List.mem_filterMap.mp hkv
    have hr2 : ValsClean ((flatBooksOfEntries exts entries).foldl
        (fun res ab => dictAppendAt res ab.1 ab.2)
        (List.foldl (scanLibStep exts) [] entries)) :=
      flatsFold_valsClean _ _ (fun ab hab => flatBooksOfEntries_clean exts entries ab hab)
        (scanLibFold_valsClean exts entries [] valsClean_nil)
    by_cases hde : (pySortedSet kv'.2).isEmpty = true
    · rw [if_pos hde] at hf; cases hf
    · rw [if_neg hde] at hf
      have hkveq : kv = (kv'.1, pySortedSet kv'.2) := (Option.some.injEq _ _ ▸ hf).symm
      rw [hkveq]
      exact groupOk_pySortedSet kv'.2 (hr2 kv' hkv')
  · intro l hl
    simp only [scan_movies, Except.ok.injEq] at hl
    subst hl
    exact groupOk_pySortedSet _ (movieTitlesOfEntries_clean exts entries)
  · intro cat hcat kv hkv
    simp only [scan_tv, Except.ok.injEq] at hcat
    subst hcat
    exact scanTvFold_valsOk exts entries [] valsOk_nil kv hkv
  · intro cat hcat kv hkv
    simp only [scan_music, Except.ok.injEq] at hcat
    subst hcat
    exact scanMusicFold_valsOk exts entries [] valsOk_nil kv hkv

/-- C9 witness: concrete applications of all four parts on small trees. -/
theorem catalog_group_invariant_witness :
    GroupOk ["B"] ∧ GroupOk ["M"] ∧ GroupOk ["E1"] ∧ GroupOk ["T"] := by
  refine ⟨?_, ?_, ?_, ?_⟩
  · exact (catalog_group_invariant [".epub"] [RTree.dir "A" [RTree.file "B.epub"]]).1
      [("A", ["B"])] rfl ("A", ["B"]) (by simp)
  · exact (catalog_group_invariant [".mkv"] [RTree.file "M.mkv"]).2.1 ["M"] rfl
  · exact (catalog_group_invariant [".mkv"] [RTree.dir "S" [RTree.file "E1.mkv"]]).2.2.1
      [("S", ["E1"])] rfl ("S", ["E1"]) (by simp)
  · exact (catalog_group_invariant [".mp3"] [RTree.file "T.mp3"]).2.2.2
      [("T.mp3", ["T"])] rfl ("T.mp3", ["T"]) (by simp)
